import Mathlib

/-!
# Verification of minor-embedding transforms

A shallow embedding of `dwave/embedding/transforms.py`: the
`EmbeddedStructure` builder, the forward embedder `embed_bqm`, and the
unembedder `unembed_sampleset`, together with proofs of the specified
properties.

Source variables and target nodes (hashables in Python) are modelled as
natural numbers; biases (floats in Python) are modelled as rationals, so
that the equal-division bookkeeping is exact.
-/

set_option autoImplicit false

namespace DwaveEmbedding

abbrev Var := Nat
abbrev Node := Nat

/-- The two-valued domain tag of a binary quadratic model. -/
inductive Vartype where
  | SPIN
  | BINARY
deriving DecidableEq, Repr

/-- The fatal errors of the transforms: `MissingChainError`,
`DisconnectedChainError`, `MissingEdgeError`, the `ValueError` raised by
`unembed_sampleset` when the bqm does not match the embedding, and an error
propagated out of a caller-supplied chain-break policy. -/
inductive Err where
  | missingChain (v : Var)
  | disconnectedChain (v : Var)
  | missingEdge (u v : Var)
  | mismatch
  | policy (msg : String)
deriving DecidableEq, Repr

/-- First-match association-list lookup (`dict.get` for a dict built without
key collisions). -/
def alookup {κ α : Type} [DecidableEq κ] (l : List (κ × α)) (k : κ) :
    Option α :=
  match l with
  | [] => none
  | (a, b) :: t => if k = a then some b else alookup t k

/-- Lookup with Python-dict overwrite semantics: the list records assignments
in program order, and the LAST binding of a key wins. -/
def dlookup {α : Type} (l : List (Nat × α)) (k : Nat) : Option α :=
  alookup l.reverse k

/-- Update the value stored at key `k` in an association list. -/
def updateAssoc {α : Type} (l : List (Nat × α)) (k : Nat) (f : α → α) :
    List (Nat × α) :=
  l.map (fun p => if p.1 = k then (p.1, f p.2) else p)

/-- The key list of a Python dict comprehension `{u: b for u in chain}`: each
key once, in order of first occurrence. -/
def dedupKeep (l : List Node) : List Node :=
  l.foldl (fun acc u => if u ∈ acc then acc else acc ++ [u]) []

/-- Modelled from the spec: `dwave.embedding.utils.intlabel_disjointsets` is
repository code outside the provided sources.  The spec uses it only as a
union-find over the chain positions `0, …, n−1`; we model the partition
directly as a labelling of positions, where two positions are in one
component iff they carry the same label.  `ufInit n` is the discrete
partition. -/
def ufInit (n : Nat) : List Nat := List.range n

/-- Modelled from the spec: `union i j` merges the components of positions
`i` and `j` by relabelling everything that carries `j`'s label with `i`'s
label. -/
def ufUnion (uf : List Nat) (i j : Nat) : List Nat :=
  let a := uf.getD i 0
  let b := uf.getD j 0
  uf.map (fun x => if x = b then a else x)

/-- Modelled from the spec: `size(0)` is the number of positions in the same
component as position `0`. -/
def ufSize0 (uf : List Nat) : Nat :=
  uf.count (uf.getD 0 0)

/-- The derived, immutable index the builder produces.  `chainEdges` is the
append-ordered log of intra-chain edges as `(owner, position pair)`;
`interEdges` is the append-ordered log of the `defaultdict(list)`
`_interaction_edges`, flattened to `(ordered key, appended position)` pairs
(per-key lists are recovered by filtering, which preserves append order). -/
structure EmbeddedStructure where
  embedding : List (Var × List Node)
  chainEdges : List (Var × Nat × Nat)
  interEdges : List ((Var × Var) × Nat)
deriving DecidableEq, Repr

/-- The first source variable (in embedding order) whose chain is empty, if
any: `EmbeddedStructure.__init__` raises `MissingChainError` there. -/
def firstEmpty (emb : List (Var × List Node)) : Option Var :=
  match emb with
  | [] => none
  | (u, c) :: t => if c = [] then some u else firstEmpty t

/-- The `target_label` dict: for each embedding item `(u, emb_u)` in order,
for each enumerated `(i, q)` of the chain, the assignment
`target_label[q] = (u, i)`, recorded in program order (lookup is `dlookup`,
last assignment wins). -/
def buildLabels (emb : List (Var × List Node)) : List (Node × Var × Nat) :=
  (emb.map (fun p => p.2.enum.map (fun iq => (iq.2, p.1, iq.1)))).flatten

/-- The mutable state of the single scan over the target edges. -/
structure ScanState where
  chainEdges : List (Var × Nat × Nat)
  interEdges : List ((Var × Var) × Nat)
  ufs : List (Var × List Nat)
deriving DecidableEq, Repr

/-- One step of the edge scan: if both endpoints are labelled, either record
an intra-chain edge and union the two positions, or append to the two
interaction lists in lockstep. -/
def scanEdge (labels : List (Node × Var × Nat)) (st : ScanState)
    (e : Node × Node) : ScanState :=
  match dlookup labels e.1, dlookup labels e.2 with
  | some (u, i), some (v, j) =>
    if u = v then
      { st with chainEdges := st.chainEdges ++ [(u, i, j)],
                ufs := updateAssoc st.ufs u (fun uf => ufUnion uf i j) }
    else
      { st with interEdges := st.interEdges ++ [((u, v), i), ((v, u), j)] }
  | _, _ => st

/-- The initial scan state: empty edge logs, each variable's union-find set
discrete over its chain positions. -/
def initState (emb : List (Var × List Node)) : ScanState :=
  { chainEdges := [], interEdges := [],
    ufs := emb.map (fun p => (p.1, ufInit p.2.length)) }

/-- The first source variable (in embedding order) whose union-find set does
not place all chain positions in one component, if any:
`EmbeddedStructure.__init__` raises `DisconnectedChainError` there. -/
def firstDisconnected (emb : List (Var × List Node))
    (ufs : List (Var × List Nat)) : Option Var :=
  match emb with
  | [] => none
  | (u, c) :: t =>
    if c.length ≠ ufSize0 ((alookup ufs u).getD []) then some u
    else firstDisconnected t ufs

/-- `EmbeddedStructure.__init__`, on a target edge list and an embedding
given as an ordered association list (`{u: tuple(c) for u, c in …}`): check
for empty chains, label the target nodes, scan the edges once, then check
chain connectivity. -/
def EmbeddedStructure.ofEdges (target_edges : List (Node × Node))
    (emb : List (Var × List Node)) : Except Err EmbeddedStructure :=
  match firstEmpty emb with
  | some u => .error (.missingChain u)
  | none =>
    match firstDisconnected emb
        ((target_edges.foldl (scanEdge (buildLabels emb))
          (initState emb)).ufs) with
    | some u => .error (.disconnectedChain u)
    | none =>
      .ok { embedding := emb,
            chainEdges := (target_edges.foldl (scanEdge (buildLabels emb))
              (initState emb)).chainEdges,
            interEdges := (target_edges.foldl (scanEdge (buildLabels emb))
              (initState emb)).interEdges }

/-- `chain_edge_iter u`: the realized target-node pairs of `u`'s intra-chain
edges, in discovery order. -/
def chainEdgeIter (es : EmbeddedStructure) (u : Var) : List (Node × Node) :=
  let emb_u := (alookup es.embedding u).getD []
  (es.chainEdges.filter (fun t => t.1 = u)).map
    (fun t => (emb_u.getD t.2.1 0, emb_u.getD t.2.2 0))

/-- The per-key list `_interaction_edges[u, v]` of the `defaultdict`. -/
def interList (es : EmbeddedStructure) (u v : Var) : List Nat :=
  (es.interEdges.filter (fun p => p.1 = (u, v))).map (fun p => p.2)

/-- `interaction_edge_iter u v`: zip the two stored index lists and realize
them through the two chains. -/
def interactionEdgeIter (es : EmbeddedStructure) (u v : Var) :
    List (Node × Node) :=
  let emb_u := (alookup es.embedding u).getD []
  let emb_v := (alookup es.embedding v).getD []
  (List.zip (interList es u v) (interList es v u)).map
    (fun ij => (emb_u.getD ij.1 0, emb_v.getD ij.2 0))

/-! ## Binary quadratic models

The source model is given as explicit data (items to iterate over, as
`source_bqm.linear.items()` and `source_bqm.quadratic.items()` do); the
target model, which `embed_bqm` builds by mutation, is modelled by its
coefficient functions, where `add_variable` / `add_interaction` /
`add_offset` add to the stored coefficient (a fresh coefficient starts at
zero). -/

/-- A source binary quadratic model: linear items, quadratic items (unordered
unique variable pairs), offset and vartype. -/
structure SrcBQM where
  linear : List (Var × ℚ)
  quadratic : List ((Var × Var) × ℚ)
  offset : ℚ
  vartype : Vartype

/-- The target binary quadratic model under construction: linear and
(symmetric) quadratic coefficient functions, offset, vartype. -/
structure TBQM where
  lin : Node → ℚ
  quad : Node → Node → ℚ
  offset : ℚ
  vartype : Vartype

/-- `target_bqm.add_variable(v, b)`: add `b` to `v`'s linear coefficient. -/
def addVariable (m : TBQM) (v : Node) (b : ℚ) : TBQM :=
  { m with lin := fun w => if w = v then m.lin w + b else m.lin w }

/-- `target_bqm.add_interaction(p, q, b)`: add `b` to the quadratic
coefficient of the unordered pair `{p, q}`. -/
def addInteraction (m : TBQM) (p q : Node) (b : ℚ) : TBQM :=
  { m with quad := fun x y =>
      if (x = p ∧ y = q) ∨ (x = q ∧ y = p) then m.quad x y + b
      else m.quad x y }

/-- `target_bqm.add_offset(b)`. -/
def addOffset (m : TBQM) (b : ℚ) : TBQM :=
  { m with offset := m.offset + b }

/-- One item of the linear pass: look up `v`'s chain (`MissingChainError` if
absent), then `add_variables_from({u: bias/len(chain) for u in chain})`. -/
def linStep (es : EmbeddedStructure) (m : TBQM) (item : Var × ℚ) :
    Except Err TBQM :=
  match alookup es.embedding item.1 with
  | none => .error (.missingChain item.1)
  | some chain =>
    let b := item.2 / (chain.length : ℚ)
    .ok ((dedupKeep chain).foldl (fun m u => addVariable m u b) m)

/-- The linear pass of `embed_bqm`: spread each source bias equally over the
chain. -/
def linearPass (src : SrcBQM) (es : EmbeddedStructure) (m : TBQM) :
    Except Err TBQM :=
  src.linear.foldlM (linStep es) m

/-- One item of the quadratic pass: enumerate the inter-chain edges
(`MissingEdgeError` if there are none), then add `bias/len(interactions)`
on each. -/
def quadStep (es : EmbeddedStructure) (m : TBQM)
    (item : (Var × Var) × ℚ) : Except Err TBQM :=
  let interactions := interactionEdgeIter es item.1.1 item.1.2
  if interactions.isEmpty then .error (.missingEdge item.1.1 item.1.2)
  else
    let b := item.2 / (interactions.length : ℚ)
    .ok (interactions.foldl (fun m e => addInteraction m e.1 e.2 b) m)

/-- The quadratic pass of `embed_bqm`: spread each source quadratic bias
equally over the available inter-chain edges. -/
def quadraticPass (src : SrcBQM) (es : EmbeddedStructure) (m : TBQM) :
    Except Err TBQM :=
  src.quadratic.foldlM (quadStep es) m

/-- The chain-penalty work for one embedding item `(v, chain)`: a size-1
chain only ensures its sole node appears (`add_variable(q, 0.0)`); otherwise,
per intra-chain edge, in SPIN add `-chain_strength` on the edge and
`+chain_strength` to the offset, in BINARY add `-4*chain_strength` on the
edge and `+2*chain_strength` to each endpoint. -/
def penaltyStep (es : EmbeddedStructure) (cs : ℚ) (m : TBQM)
    (item : Var × List Node) : TBQM :=
  if item.2.length = 1 then
    addVariable m (item.2.headD 0) 0
  else if m.vartype = Vartype.SPIN then
    (chainEdgeIter es item.1).foldl
      (fun m e => addOffset (addInteraction m e.1 e.2 (-cs)) cs) m
  else
    (chainEdgeIter es item.1).foldl
      (fun m e =>
        addVariable
          (addVariable (addInteraction m e.1 e.2 (-(4 * cs))) e.1 (2 * cs))
          e.2 (2 * cs)) m

/-- The chain-penalty pass of `embed_bqm`, over all embedding items. -/
def chainPenaltyPass (es : EmbeddedStructure) (cs : ℚ) (m : TBQM) : TBQM :=
  es.embedding.foldl (penaltyStep es cs) m

/-- The empty target model `embed_bqm` starts from, after
`add_offset(source_bqm.offset)`: zero coefficients, the source offset, the
source vartype. -/
def initTarget (src : SrcBQM) : TBQM :=
  { lin := fun _ => 0, quad := fun _ _ => 0, offset := src.offset,
    vartype := src.vartype }

/-- `embed_bqm` on a prebuilt `EmbeddedStructure` (the `smear_vartype=None`
path): offset, linear pass, quadratic pass, chain penalties. -/
def embed_bqm (src : SrcBQM) (es : EmbeddedStructure) (cs : ℚ) :
    Except Err TBQM := do
  let m1 ← linearPass src es (initTarget src)
  let m2 ← quadraticPass src es m1
  .ok (chainPenaltyPass es cs m2)

/-- `embed_bqm` when the embedding is a raw mapping: build the
`EmbeddedStructure` from the target edges first, then embed. -/
def embed_bqm_mapping (src : SrcBQM) (target_edges : List (Node × Node))
    (emb : List (Var × List Node)) (cs : ℚ) : Except Err TBQM := do
  let es ← EmbeddedStructure.ofEdges target_edges emb
  embed_bqm src es cs

/-! ## Sample sets and unembedding

A sample batch (`dimod.SampleSet`) is a list of rows over an ordered
variable list, with per-row energies and arbitrary other per-row fields
(`record.dtype.names` minus the reserved `sample` and `energy`, e.g.
`num_occurrences`), which we keep as named columns. -/

/-- A sample set: ordered variables, sample rows, energies, and the
remaining per-row record fields as named columns. -/
structure SampleSet where
  vars : List Var
  samples : List (List ℚ)
  energies : List ℚ
  vectors : List (String × List ℚ)

/-- The assignment a row encodes, read through the ordered variable list. -/
def assignOf (vars : List Var) (row : List ℚ) (v : Var) : ℚ :=
  (alookup (List.zip vars row) v).getD 0

/-- Modelled from the spec: energy evaluation belongs to the external model
container; the spec defines a model's energy as offset plus linear plus
quadratic contributions. -/
def energy (bqm : SrcBQM) (x : Var → ℚ) : ℚ :=
  bqm.offset + (bqm.linear.map (fun p => p.2 * x p.1)).sum
    + (bqm.quadratic.map (fun p => p.2 * x p.1.1 * x p.1.2)).sum

/-- A chain-break resolution policy: from the target batch and the chain
list, the retained rows' resolved source-domain values and the retained
original row indices, in order — or an error, which propagates. -/
def ChainBreakMethod : Type :=
  SampleSet → List (List Node) → Except String (List (List ℚ) × List Nat)

/-- Modelled from the spec: `dimod.SampleSet.from_samples_bqm` belongs to
the external model container; per the spec it builds the batch from the
given rows and variables, recomputing every row's energy against the model,
and attaches the given extra per-row fields. -/
def fromSamplesBqm (rows : List (List ℚ)) (vars : List Var) (bqm : SrcBQM)
    (vectors : List (String × List ℚ)) : SampleSet :=
  { vars := vars, samples := rows,
    energies := rows.map (fun r => energy bqm (assignOf vars r)),
    vectors := vectors }

/-- The list comprehension `[embedding[v] for v in variables]`: each
variable's chain, in order, or the `KeyError`-turned-`ValueError` mismatch
failure when a variable has no chain. -/
def chainsFor (emb : List (Var × List Node)) (vs : List Var) :
    Except Err (List (List Node)) :=
  match vs with
  | [] => .ok []
  | v :: rest =>
    match alookup emb v with
    | none => .error .mismatch
    | some ch => (chainsFor emb rest).map (fun t => ch :: t)

/-- `unembed_sampleset` with a single chain-break method: gather the chains
in the model's variable order (`ValueError` if one is missing), run the
policy once, re-align every non-reserved record field by the retained
indices, and rebuild the batch from the resolved rows against the source
model. -/
def unembedSingle (ts : SampleSet) (emb : List (Var × List Node))
    (bqm : SrcBQM) (cbm : ChainBreakMethod) : Except Err SampleSet :=
  match chainsFor emb (bqm.linear.map Prod.fst) with
  | .error e => .error e
  | .ok chains =>
    match cbm ts chains with
    | .error s => .error (.policy s)
    | .ok (unembedded, idxs) =>
      .ok (fromSamplesBqm unembedded (bqm.linear.map Prod.fst) bqm
        (ts.vectors.map
          (fun p => (p.1, idxs.map (fun i => p.2.getD i 0)))))

/-- Modelled from the spec: `dimod.sampleset.concatenate` belongs to the
external model container; it concatenates the batches' rows, energies and
per-row fields (all sub-batches here share one variable order and one field
layout, taken from the first). -/
def concatenateSS (l : List SampleSet) : SampleSet :=
  match l with
  | [] => { vars := [], samples := [], energies := [], vectors := [] }
  | h :: _ =>
    { vars := h.vars,
      samples := (l.map (fun s => s.samples)).flatten,
      energies := (l.map (fun s => s.energies)).flatten,
      vectors := h.vectors.map (fun p =>
        (p.1, (l.map (fun s => (alookup s.vectors p.1).getD [])).flatten)) }

/-- Append a per-row field to a batch
(`np.lib.recfunctions.append_fields`). -/
def appendField (s : SampleSet) (name : String) (col : List ℚ) : SampleSet :=
  { s with vectors := s.vectors ++ [(name, col)] }

/-- The `cbm_idxs` vector: position `i`'s block, of the `i`-th sub-batch's
row count, is filled with `i`. -/
def cbmIdxs (l : List SampleSet) : List ℚ :=
  (l.enum.map (fun p => List.replicate p.2.samples.length (p.1 : ℚ))).flatten

/-- The list comprehension running the whole procedure once per method. -/
def runPolicies (ts : SampleSet) (emb : List (Var × List Node))
    (bqm : SrcBQM) (cbms : List ChainBreakMethod) :
    Except Err (List SampleSet) :=
  match cbms with
  | [] => .ok []
  | cbm :: rest =>
    match unembedSingle ts emb bqm cbm with
    | .error e => .error e
    | .ok s => (runPolicies ts emb bqm rest).map (fun l => s :: l)

/-- `unembed_sampleset` when `chain_break_method` is a sequence: run the
whole procedure independently per method, concatenate in order, and append
the `chain_break_method` per-row field holding each row's originating
method index. -/
def unembedMulti (ts : SampleSet) (emb : List (Var × List Node))
    (bqm : SrcBQM) (cbms : List ChainBreakMethod) : Except Err SampleSet :=
  match runPolicies ts emb bqm cbms with
  | .error e => .error e
  | .ok samplesets =>
    .ok (appendField (concatenateSS samplesets) "chain_break_method"
      (cbmIdxs samplesets))

/-! ## Well-formedness of inputs

The spec's data-model invariants: an embedding maps each source variable
(unique keys) to a chain of distinct nodes, chains of different variables
sharing no node; a target edge set is undirected with no self-loops, each
edge recorded once. -/

/-- The embedding invariant: unique keys, duplicate-free chains, pairwise
node-disjoint chains. -/
def GoodEmb (emb : List (Var × List Node)) : Prop :=
  (emb.map Prod.fst).Nodup ∧ (∀ p ∈ emb, p.2.Nodup) ∧
    List.Pairwise (fun p q => ∀ x ∈ p.2, x ∉ q.2) emb

instance (emb : List (Var × List Node)) : Decidable (GoodEmb emb) := by
  unfold GoodEmb; infer_instance

/-- The target-edge-set invariant: no self-loops, and each undirected edge
listed once (in one direction only). -/
def GoodEdges (edges : List (Node × Node)) : Prop :=
  (∀ e ∈ edges, e.1 ≠ e.2) ∧
    List.Pairwise (fun a b => a ≠ b ∧ a ≠ (b.2, b.1)) edges

instance (edges : List (Node × Node)) : Decidable (GoodEdges edges) := by
  unfold GoodEdges; infer_instance

/-! ## Characterizing the edge scan

The scan over the target edges is a fold; these lemmas give closed forms
for its three outputs as per-edge contributions. -/

/-- What one scanned edge contributes to the intra-chain edge log. -/
def edgeContribChain (labels : List (Node × Var × Nat)) (e : Node × Node) :
    List (Var × Nat × Nat) :=
  match dlookup labels e.1, dlookup labels e.2 with
  | some (u, i), some (v, j) => if u = v then [(u, i, j)] else []
  | _, _ => []

/-- What one scanned edge contributes to the interaction-edge log: the
lockstep pair of appends, or nothing. -/
def edgeContribInter (labels : List (Node × Var × Nat)) (e : Node × Node) :
    List ((Var × Var) × Nat) :=
  match dlookup labels e.1, dlookup labels e.2 with
  | some (u, i), some (v, j) =>
    if u = v then [] else [((u, v), i), ((v, u), j)]
  | _, _ => []

/-- The position pairs unioned into `u`'s union-find set, in scan order. -/
def intraPairs (labels : List (Node × Var × Nat))
    (edges : List (Node × Node)) (u : Var) : List (Nat × Nat) :=
  (((edges.map (edgeContribChain labels)).flatten).filter
    (fun t => t.1 = u)).map (fun t => t.2)

/-- Fold a list of union operations into a union-find state. -/
def applyUnions (pairs : List (Nat × Nat)) (uf : List Nat) : List Nat :=
  pairs.foldl (fun uf ij => ufUnion uf ij.1 ij.2) uf

/-! ## The connecting-edge characterization

`connEdges emb u v edges` is the membership-level description of the target
edges joining `u`'s chain to `v`'s chain, each oriented with the `u`-side
node first regardless of the direction in which it was listed. -/

/-- The target edges connecting `u`'s chain to `v`'s chain, in scan order,
oriented `(u`-side node, `v`-side node`)`. -/
def connEdges (emb : List (Var × List Node)) (u v : Var)
    (edges : List (Node × Node)) : List (Node × Node) :=
  let cu := (alookup emb u).getD []
  let cv := (alookup emb v).getD []
  edges.filterMap (fun e =>
    if e.1 ∈ cu ∧ e.2 ∈ cv then some e
    else if e.1 ∈ cv ∧ e.2 ∈ cu then some (e.2, e.1)
    else none)

/-- The per-key position list recovered from a flat interaction-edge log. -/
def keyedPositions (L : List ((Var × Var) × Nat)) (u v : Var) : List Nat :=
  (L.filter (fun p => p.1 = (u, v))).map (fun p => p.2)

/-! ## Chain connectivity -/

/-- A chain of `n` positions is connected by the given union operations if,
after applying them all to the discrete partition, position `0`'s component
covers all `n` positions. -/
def chainConn (n : Nat) (pairs : List (Nat × Nat)) : Prop :=
  ufSize0 (applyUnions pairs (ufInit n)) = n

instance (n : Nat) (pairs : List (Nat × Nat)) : Decidable (chainConn n pairs) := by
  unfold chainConn; infer_instance

/-! ## Accounting for the target-model mutations

`pairCount L x y` counts the entries of `L` realizing the unordered pair
`{x, y}`; `endCount L n` counts the endpoints of entries of `L` equal to
`n`.  They describe exactly what repeated `add_interaction` /
`add_variable` calls accumulate. -/

def pairCount (L : List (Node × Node)) (x y : Node) : Nat :=
  (L.filter (fun e => (x = e.1 ∧ y = e.2) ∨ (x = e.2 ∧ y = e.1))).length

def endCount (L : List (Node × Node)) (n : Node) : Nat :=
  (L.filter (fun e => n = e.1)).length + (L.filter (fun e => n = e.2)).length

/-- What the linear pass adds to node `n`: for each source item whose chain
contains `n`, the item's bias divided by the chain's length. -/
def linContrib (es : EmbeddedStructure) (items : List (Var × ℚ))
    (n : Node) : ℚ :=
  (items.map (fun p =>
    match alookup es.embedding p.1 with
    | some ch => if n ∈ ch then p.2 / (ch.length : ℚ) else 0
    | none => 0)).sum

/-- What the quadratic pass adds to the pair `{x, y}`: for each source
quadratic item, its bias divided by the number of available inter-chain
edges, once per listed edge realizing `{x, y}`. -/
def quadContrib (es : EmbeddedStructure)
    (items : List ((Var × Var) × ℚ)) (x y : Node) : ℚ :=
  (items.map (fun p =>
    if (interactionEdgeIter es p.1.1 p.1.2).isEmpty then 0
    else (p.2 / ((interactionEdgeIter es p.1.1 p.1.2).length : ℚ)) *
      (pairCount (interactionEdgeIter es p.1.1 p.1.2) x y : ℚ))).sum

/-! ## Unembedding lemmas -/

/-- The chain list `[embedding[v] for v in variables]`, in the source
model's variable order. -/
def chainsOf (emb : List (Var × List Node)) (bqm : SrcBQM) :
    List (List Node) :=
  (bqm.linear.map Prod.fst).map (fun v => (alookup emb v).getD [])

/-! ## Source-model well-formedness and localization lemmas -/

/-- The source-model invariant maintained by the external model container:
unique linear variables; quadratic keys that are unordered-unique pairs of
distinct variables, each of which carries a linear entry. -/
def SrcOk (src : SrcBQM) : Prop :=
  (src.linear.map Prod.fst).Nodup ∧
  List.Pairwise (fun a b => a.1 ≠ b.1 ∧ a.1 ≠ (b.1.2, b.1.1))
    src.quadratic ∧
  (∀ p ∈ src.quadratic, p.1.1 ≠ p.1.2) ∧
  (∀ p ∈ src.quadratic, p.1.1 ∈ src.linear.map Prod.fst ∧
    p.1.2 ∈ src.linear.map Prod.fst)

instance (src : SrcBQM) : Decidable (SrcOk src) := by
  unfold SrcOk; infer_instance

/-- The total number of intra-chain edges over all chains of size ≠ 1. -/
def totalIntraEdges (es : EmbeddedStructure) : Nat :=
  ((es.embedding.filter (fun p => ¬ p.2.length = 1)).map
    (fun p => (chainEdgeIter es p.1).length)).sum

/-- The number of intra-chain edge endpoints equal to `n`, over all chains
of size ≠ 1. -/
def intraDegree (es : EmbeddedStructure) (n : Node) : Nat :=
  ((es.embedding.filter (fun p => ¬ p.2.length = 1)).map
    (fun p => endCount (chainEdgeIter es p.1) n)).sum

/-! ## Concrete witness inputs -/

/-- The docstring example: a 4-cycle target graph. -/
def wEdges : List (Node × Node) := [(0, 1), (0, 3), (1, 2), (2, 3)]

/-- The docstring example embedding: `a ↦ {0}`, `b ↦ {1}`, `c ↦ {2, 3}`. -/
def wEmb : List (Var × List Node) := [(10, [0]), (11, [1]), (12, [2, 3])]

/-- The structure built from `wEdges` and `wEmb`. -/
def wEs : EmbeddedStructure :=
  { embedding := wEmb,
    chainEdges := [(12, 0, 1)],
    interEdges := [((10, 11), 0), ((11, 10), 0), ((10, 12), 0),
      ((12, 10), 1), ((11, 12), 0), ((12, 11), 0)] }

/-- The target batch of the docstring example. -/
def wTs : SampleSet :=
  { vars := [0, 1, 2, 3],
    samples := [[-1, -1, -1, -1], [-1, 1, 1, 1]],
    energies := [-3, 1],
    vectors := [("num_occurrences", [1, 1])] }

/-- The triangular source model of the docstring example. -/
def wBqm : SrcBQM :=
  { linear := [(10, 0), (11, 0), (12, 0)],
    quadratic := [((10, 11), -1), ((11, 12), -1), ((10, 12), -1)],
    offset := 0, vartype := .SPIN }

/-- A policy keeping both rows. -/
def wCbm1 : ChainBreakMethod :=
  fun _ _ => .ok ([[-1, -1, -1], [1, 1, 1]], [0, 1])

/-- A policy keeping only the second row. -/
def wCbm2 : ChainBreakMethod := fun _ _ => .ok ([[1, 1, 1]], [1])

/-- A failing policy. -/
def wCbmBad : ChainBreakMethod := fun _ _ => .error "boom"

/-- The per-policy batches of the two-policy witness run. -/
def wRP : List SampleSet :=
  (runPolicies wTs wEmb wBqm [wCbm1, wCbm2]).toOption.getD []

/-- A source model whose variable 99 has no chain in `wEmb`. -/
def wSrcMissing : SrcBQM :=
  { linear := [(99, 1)], quadratic := [], offset := 0, vartype := .SPIN }

/-- A source model with nonzero linear biases on `wEmb`'s variables. -/
def wSrcLin : SrcBQM :=
  { linear := [(10, 4), (12, 6)], quadratic := [], offset := 0,
    vartype := .SPIN }

/-- A source model with one quadratic term between the chained variables of
the docstring example. -/
def wSrcQuad : SrcBQM :=
  { linear := [(10, 0), (11, 0), (12, 0)],
    quadratic := [((10, 11), 3), ((10, 12), 5)],
    offset := 0, vartype := .SPIN }

/-- A source model with a quadratic term between chains not joined by any
target edge (variables 11 and 12 own nodes 1 and {2,3}; the 4-cycle has an
edge (1,2), so use a reduced edge list that omits it). -/
def wEdgesCut : List (Node × Node) := [(0, 1), (0, 3), (2, 3)]

/-- The structure built from `wEdgesCut` and `wEmb`. -/
def wEsCut : EmbeddedStructure :=
  (EmbeddedStructure.ofEdges wEdgesCut wEmb).toOption.getD wEs

/-- The binary-domain version of the triangular source model. -/
def wBqmB : SrcBQM :=
  { linear := [(10, 0), (11, 0), (12, 0)],
    quadratic := [((10, 11), -1), ((11, 12), -1), ((10, 12), -1)],
    offset := 0, vartype := .BINARY }

/-- The identity embedding of three variables onto a target triangle. -/
def wEmbId : List (Var × List Node) := [(20, [0]), (21, [1]), (22, [2])]

/-- A triangle of target edges for the identity-embedding witness. -/
def wEdgesId : List (Node × Node) := [(0, 1), (1, 2), (0, 2)]

/-- A source model with every coefficient nonzero on mapped pairs. -/
def wSrcId : SrcBQM :=
  { linear := [(20, 2), (21, -1), (22, 3)],
    quadratic := [((20, 21), 2), ((21, 22), -3)],
    offset := 5, vartype := .SPIN }

/-- The structure built from the triangle and the identity embedding. -/
def wEsId : EmbeddedStructure :=
  (EmbeddedStructure.ofEdges wEdgesId wEmbId).toOption.getD wEs

/-- The target model embedded through the identity embedding. -/
def wTId : TBQM :=
  (embed_bqm wSrcId wEsId 1).toOption.getD (initTarget wSrcId)

/-! ## Theorems -/

/-! ## Association-list lemmas -/

theorem alookup_eq_some_mem {κ α : Type} [DecidableEq κ]
    {l : List (κ × α)} {k : κ} {v : α} (h : alookup l k = some v) :
    (k, v) ∈ l := by
  induction l with
  | nil => simp [alookup] at h
  | cons p t ih =>
    cases p with
    | mk a b =>
      rw [alookup] at h
      by_cases hk : k = a
      · rw [if_pos hk] at h
        injection h with h
        subst h; subst hk
        exact List.mem_cons_self _ _
      · rw [if_neg hk] at h
        exact List.mem_cons_of_mem _ (ih h)

theorem alookup_of_mem_nodup {κ α : Type} [DecidableEq κ]
    {l : List (κ × α)} {k : κ} {v : α}
    (hn : (l.map Prod.fst).Nodup) (h : (k, v) ∈ l) :
    alookup l k = some v := by
  induction l with
  | nil => simp at h
  | cons p t ih =>
    simp only [List.map_cons, List.nodup_cons] at hn
    rcases List.mem_cons.mp h with h | h
    · cases h; simp [alookup]
    · rw [alookup]
      have hk : k ≠ p.1 := by
        intro hkp
        exact hn.1 (hkp ▸ (List.mem_map.mpr ⟨(k, v), h, rfl⟩))
      rw [if_neg hk]
      exact ih hn.2 h

theorem alookup_isSome_iff {κ α : Type} [DecidableEq κ]
    {l : List (κ × α)} {k : κ} :
    (alookup l k).isSome ↔ k ∈ l.map Prod.fst := by
  induction l with
  | nil => simp [alookup]
  | cons p t ih =>
    rw [alookup]
    by_cases hk : k = p.1 <;> simp [hk, ih]

theorem alookup_eq_none_iff {κ α : Type} [DecidableEq κ]
    {l : List (κ × α)} {k : κ} :
    alookup l k = none ↔ k ∉ l.map Prod.fst := by
  rw [← alookup_isSome_iff, Option.isSome_iff_exists]
  cases alookup l k <;> simp

theorem alookup_map_val {κ α β : Type} [DecidableEq κ]
    {l : List (κ × α)} {k : κ} (f : α → β) :
    alookup (l.map (fun p => (p.1, f p.2))) k = (alookup l k).map f := by
  induction l with
  | nil => simp [alookup]
  | cons p t ih =>
    rw [List.map_cons, alookup, alookup]
    by_cases hk : k = p.1 <;> simp [hk, ih]

theorem dlookup_eq_some_iff {α : Type} {l : List (Nat × α)} {k : Nat}
    {v : α} (hn : (l.map Prod.fst).Nodup) :
    dlookup l k = some v ↔ (k, v) ∈ l := by
  have hrev : (l.reverse.map Prod.fst).Nodup := by
    rw [List.map_reverse]
    exact List.nodup_reverse.mpr hn
  constructor
  · intro h
    have := alookup_eq_some_mem h
    exact List.mem_reverse.mp this
  · intro h
    exact alookup_of_mem_nodup hrev (List.mem_reverse.mpr h)

theorem dlookup_eq_none_iff {α : Type} {l : List (Nat × α)} {k : Nat} :
    dlookup l k = none ↔ k ∉ l.map Prod.fst := by
  rw [dlookup, alookup_eq_none_iff, List.map_reverse]
  rw [List.mem_reverse]

theorem alookup_updateAssoc {α : Type} (l : List (Nat × α)) (k k' : Nat)
    (f : α → α) :
    alookup (updateAssoc l k f) k' =
      if k' = k then (alookup l k').map f else alookup l k' := by
  induction l with
  | nil => by_cases h : k' = k <;> simp [updateAssoc, alookup, h]
  | cons p t ih =>
    rw [updateAssoc, List.map_cons, ← updateAssoc]
    by_cases hpk : p.1 = k
    · rw [if_pos hpk, alookup, alookup]
      by_cases hk : k' = p.1
      · rw [if_pos hk, if_pos hk, if_pos (hk.trans hpk)]
        rfl
      · rw [if_neg hk, if_neg hk, ih]
    · rw [if_neg hpk, alookup, alookup]
      by_cases hk : k' = p.1
      · rw [if_pos hk, if_pos hk, if_neg (by rw [hk]; exact hpk)]
      · rw [if_neg hk, if_neg hk, ih]

theorem updateAssoc_map_fst {α : Type} (l : List (Nat × α)) (k : Nat)
    (f : α → α) : (updateAssoc l k f).map Prod.fst = l.map Prod.fst := by
  induction l with
  | nil => rfl
  | cons p t ih =>
    rw [updateAssoc, List.map_cons, List.map_cons, List.map_cons,
      ← updateAssoc, ih]
    by_cases hpk : p.1 = k <;> simp [hpk]

/-! ## dedupKeep lemmas -/

theorem dedupKeep_aux_mem (l : List Node) (acc : List Node) (x : Node) :
    x ∈ l.foldl (fun acc u => if u ∈ acc then acc else acc ++ [u]) acc ↔
      x ∈ acc ∨ x ∈ l := by
  induction l generalizing acc with
  | nil => simp
  | cons h t ih =>
    rw [List.foldl_cons]
    by_cases hh : h ∈ acc
    · rw [if_pos hh, ih]
      constructor
      · rintro (hx | hx)
        · exact Or.inl hx
        · exact Or.inr (List.mem_cons_of_mem _ hx)
      · rintro (hx | hx)
        · exact Or.inl hx
        · rcases List.mem_cons.mp hx with hx | hx
          · exact Or.inl (hx ▸ hh)
          · exact Or.inr hx
    · rw [if_neg hh, ih]
      simp only [List.mem_append, List.mem_singleton, List.mem_cons]
      tauto

theorem dedupKeep_aux_nodup (l : List Node) (acc : List Node)
    (hacc : acc.Nodup) :
    (l.foldl (fun acc u => if u ∈ acc then acc else acc ++ [u]) acc).Nodup := by
  induction l generalizing acc with
  | nil => exact hacc
  | cons h t ih =>
    rw [List.foldl_cons]
    by_cases hh : h ∈ acc
    · rw [if_pos hh]; exact ih _ hacc
    · rw [if_neg hh]
      refine ih _ ?_
      rw [List.nodup_append]
      exact ⟨hacc, List.nodup_singleton h, by simpa using hh⟩

theorem mem_dedupKeep (l : List Node) (x : Node) :
    x ∈ dedupKeep l ↔ x ∈ l := by
  rw [dedupKeep, dedupKeep_aux_mem]; simp

theorem nodup_dedupKeep (l : List Node) : (dedupKeep l).Nodup :=
  dedupKeep_aux_nodup l [] List.nodup_nil

/-! ## Labelling lemmas -/

theorem buildLabels_map_fst (emb : List (Var × List Node)) :
    (buildLabels emb).map Prod.fst = (emb.map (fun p => p.2)).flatten := by
  rw [buildLabels, List.map_flatten, List.map_map]
  congr 1
  refine List.map_congr_left ?_
  intro p _
  simp only [Function.comp_apply, List.map_map]
  have h : (Prod.fst ∘ fun iq : Nat × Node => (iq.2, p.1, iq.1)) = Prod.snd :=
    rfl
  rw [h, List.enum_map_snd]

theorem mem_buildLabels {emb : List (Var × List Node)} {q : Node} {u : Var}
    {i : Nat} :
    (q, u, i) ∈ buildLabels emb ↔ ∃ ch, (u, ch) ∈ emb ∧ ch[i]? = some q := by
  rw [buildLabels]
  simp only [List.mem_flatten, List.mem_map]
  constructor
  · rintro ⟨_, ⟨p, hp, rfl⟩, hq⟩
    rcases List.mem_map.mp hq with ⟨iq, hiq, heq⟩
    obtain ⟨h1, h2, h3⟩ : iq.2 = q ∧ p.1 = u ∧ iq.1 = i := by
      refine ⟨congrArg Prod.fst heq, ?_, ?_⟩
      · exact congrArg (Prod.fst ∘ Prod.snd) heq
      · exact congrArg (Prod.snd ∘ Prod.snd) heq
    refine ⟨p.2, by rw [← h2]; exact hp, ?_⟩
    rw [← h1, ← h3]
    exact List.mem_enum_iff_getElem?.mp (by cases iq; exact hiq)
  · rintro ⟨ch, hc, hi⟩
    refine ⟨(ch.enum.map (fun iq => (iq.2, u, iq.1))), ⟨(u, ch), hc, rfl⟩, ?_⟩
    exact List.mem_map.mpr ⟨(i, q), List.mem_enum_iff_getElem?.mpr hi, rfl⟩

theorem buildLabels_keys_nodup {emb : List (Var × List Node)}
    (h : GoodEmb emb) : ((buildLabels emb).map Prod.fst).Nodup := by
  rw [buildLabels_map_fst, List.nodup_flatten]
  constructor
  · intro c hc
    rcases List.mem_map.mp hc with ⟨p, hp, rfl⟩
    exact h.2.1 p hp
  · exact List.Pairwise.map _ (fun p q hpq => hpq) h.2.2

theorem dlookup_buildLabels {emb : List (Var × List Node)} {q : Node}
    {u : Var} {i : Nat} (h : GoodEmb emb) :
    dlookup (buildLabels emb) q = some (u, i) ↔
      ∃ ch, (u, ch) ∈ emb ∧ ch[i]? = some q := by
  rw [dlookup_eq_some_iff (buildLabels_keys_nodup h), mem_buildLabels]

theorem dlookup_buildLabels_none {emb : List (Var × List Node)} {q : Node} :
    dlookup (buildLabels emb) q = none ↔ ∀ p ∈ emb, q ∉ p.2 := by
  rw [dlookup_eq_none_iff, buildLabels_map_fst]
  simp only [List.mem_flatten, List.mem_map]
  constructor
  · intro hn p hp hq
    exact hn ⟨p.2, ⟨p, hp, rfl⟩, hq⟩
  · rintro hf ⟨c, ⟨p, hp, rfl⟩, hq⟩
    exact hf p hp hq

theorem scan_chainEdges (labels : List (Node × Var × Nat))
    (edges : List (Node × Node)) (st : ScanState) :
    (edges.foldl (scanEdge labels) st).chainEdges =
      st.chainEdges ++ (edges.map (edgeContribChain labels)).flatten := by
  induction edges generalizing st with
  | nil => simp
  | cons e rest ih =>
    rw [List.foldl_cons, ih, List.map_cons, List.flatten_cons]
    rcases h1 : dlookup labels e.1 with _ | ⟨u, i⟩ <;>
      rcases h2 : dlookup labels e.2 with _ | ⟨v, j⟩ <;>
        simp only [scanEdge, edgeContribChain, h1, h2, List.nil_append,
          List.append_assoc]
    by_cases huv : u = v <;> simp [huv]

theorem scan_interEdges (labels : List (Node × Var × Nat))
    (edges : List (Node × Node)) (st : ScanState) :
    (edges.foldl (scanEdge labels) st).interEdges =
      st.interEdges ++ (edges.map (edgeContribInter labels)).flatten := by
  induction edges generalizing st with
  | nil => simp
  | cons e rest ih =>
    rw [List.foldl_cons, ih, List.map_cons, List.flatten_cons]
    rcases h1 : dlookup labels e.1 with _ | ⟨u, i⟩ <;>
      rcases h2 : dlookup labels e.2 with _ | ⟨v, j⟩ <;>
        simp only [scanEdge, edgeContribInter, h1, h2, List.nil_append,
          List.append_assoc]
    by_cases huv : u = v <;> simp [huv]

theorem scan_ufs_lookup (labels : List (Node × Var × Nat))
    (edges : List (Node × Node)) (st : ScanState) (u : Var) :
    alookup (edges.foldl (scanEdge labels) st).ufs u =
      (alookup st.ufs u).map (applyUnions (intraPairs labels edges u)) := by
  induction edges generalizing st with
  | nil =>
    simp only [List.foldl_nil, intraPairs, List.map_nil, List.flatten_nil,
      List.filter_nil, applyUnions, List.foldl_nil]
    cases alookup st.ufs u <;> rfl
  | cons e rest ih =>
    rw [List.foldl_cons, ih]
    have hsplit : intraPairs labels (e :: rest) u =
        ((edgeContribChain labels e).filter (fun t => t.1 = u)).map
          (fun t => t.2) ++ intraPairs labels rest u := by
      simp [intraPairs, List.filter_append]
    rw [hsplit]
    rcases h1 : dlookup labels e.1 with _ | ⟨a, i⟩ <;>
      rcases h2 : dlookup labels e.2 with _ | ⟨b, j⟩ <;>
        simp only [scanEdge, edgeContribChain, h1, h2, List.filter_nil,
          List.map_nil, List.nil_append]
    by_cases hab : a = b
    · subst hab
      simp only [eq_self_iff_true, if_true]
      by_cases hau : a = u
      · subst hau
        have hfil : (([(a, i, j)].filter (fun t => t.1 = a)).map
            (fun t => t.2)) = [(i, j)] := by simp
        rw [hfil, alookup_updateAssoc, if_pos rfl]
        cases alookup st.ufs a <;>
          simp [applyUnions, Option.map_map, Function.comp]
      · have hfil : (([(a, i, j)].filter (fun t => t.1 = u)).map
            (fun t => t.2)) = [] := by simp [hau]
        rw [hfil, List.nil_append, alookup_updateAssoc,
          if_neg (fun h => hau h.symm)]
    · simp [hab]

/-! ## Ownership lemmas

Under `GoodEmb`, the target-label dict is the inverse of chain membership:
a node's label names the unique chain containing it and its position
there. -/

theorem goodEmb_chain_unique {emb : List (Var × List Node)} {u : Var}
    {c1 c2 : List Node} (hG : GoodEmb emb) (h1 : (u, c1) ∈ emb)
    (h2 : (u, c2) ∈ emb) : c1 = c2 := by
  have e1 := alookup_of_mem_nodup hG.1 h1
  have e2 := alookup_of_mem_nodup hG.1 h2
  rw [e1] at e2
  exact Option.some_injective _ e2

theorem goodEmb_disjoint {emb : List (Var × List Node)} {a u : Var}
    {ca cu : List Node} (hG : GoodEmb emb) (ha : (a, ca) ∈ emb)
    (hu : (u, cu) ∈ emb) (hau : a ≠ u) : ∀ x ∈ ca, x ∉ cu := by
  have hp : emb.Pairwise
      (fun p q : Var × List Node => p.2.Disjoint q.2 ∧ q.2.Disjoint p.2) :=
    hG.2.2.imp (fun h => ⟨h, List.Disjoint.symm h⟩)
  have hsym : Symmetric
      (fun p q : Var × List Node => p.2.Disjoint q.2 ∧ q.2.Disjoint p.2) :=
    fun p q h => ⟨h.2, h.1⟩
  have hne : (a, ca) ≠ (u, cu) := fun h => hau (congrArg Prod.fst h)
  exact fun x hx hxu => (List.Pairwise.forall hsym hp ha hu hne).1 hx hxu

theorem label_owner_getElem {emb : List (Var × List Node)} {u : Var}
    {cu : List Node} {q : Node} {i : Nat} (hG : GoodEmb emb)
    (hu : (u, cu) ∈ emb)
    (h : dlookup (buildLabels emb) q = some (u, i)) : cu[i]? = some q := by
  rcases (dlookup_buildLabels hG).mp h with ⟨ch, hch, hi⟩
  rwa [goodEmb_chain_unique hG hu hch]

theorem label_of_mem {emb : List (Var × List Node)} {u : Var}
    {cu : List Node} {q : Node} (hG : GoodEmb emb) (hu : (u, cu) ∈ emb)
    (hq : q ∈ cu) : ∃ i, dlookup (buildLabels emb) q = some (u, i) := by
  rcases List.mem_iff_getElem.mp hq with ⟨i, hi, hqi⟩
  exact ⟨i, (dlookup_buildLabels hG).mpr
    ⟨cu, hu, by rw [List.getElem?_eq_getElem hi, hqi]⟩⟩

theorem not_mem_of_label_ne {emb : List (Var × List Node)} {a u : Var}
    {cu : List Node} {q : Node} {i : Nat} (hG : GoodEmb emb)
    (hu : (u, cu) ∈ emb)
    (h : dlookup (buildLabels emb) q = some (a, i)) (hau : a ≠ u) :
    q ∉ cu := by
  rcases (dlookup_buildLabels hG).mp h with ⟨ca, hca, hi⟩
  exact goodEmb_disjoint hG hca hu hau q (List.getElem?_mem hi)

theorem not_mem_of_label_none {emb : List (Var × List Node)} {u : Var}
    {cu : List Node} {q : Node} (h : dlookup (buildLabels emb) q = none)
    (hu : (u, cu) ∈ emb) : q ∉ cu :=
  dlookup_buildLabels_none.mp h (u, cu) hu

theorem keyedPositions_append (A B : List ((Var × Var) × Nat)) (u v : Var) :
    keyedPositions (A ++ B) u v =
      keyedPositions A u v ++ keyedPositions B u v := by
  simp [keyedPositions, List.filter_append]

theorem connEdges_append (emb : List (Var × List Node)) (u v : Var)
    (l1 l2 : List (Node × Node)) :
    connEdges emb u v (l1 ++ l2) =
      connEdges emb u v l1 ++ connEdges emb u v l2 := by
  simp [connEdges, List.filterMap_append]

theorem ofEdges_ok_elim {edges : List (Node × Node)}
    {emb : List (Var × List Node)} {es : EmbeddedStructure}
    (h : EmbeddedStructure.ofEdges edges emb = .ok es) :
    es.embedding = emb ∧
    es.chainEdges = (edges.map (edgeContribChain (buildLabels emb))).flatten ∧
    es.interEdges = (edges.map (edgeContribInter (buildLabels emb))).flatten := by
  rw [EmbeddedStructure.ofEdges] at h
  rcases he : firstEmpty emb with _ | w
  · rw [he] at h
    rcases hd : firstDisconnected emb
        ((edges.foldl (scanEdge (buildLabels emb)) (initState emb)).ufs)
      with _ | w
    · rw [hd] at h
      injection h with h
      subst h
      refine ⟨rfl, ?_, ?_⟩
      · rw [scan_chainEdges]; rfl
      · rw [scan_interEdges]; rfl
    · rw [hd] at h; exact absurd h (by simp)
  · rw [he] at h; exact absurd h (by simp)

theorem connEdges_singleton (emb : List (Var × List Node)) (u v : Var)
    (e : Node × Node) :
    connEdges emb u v [e] =
      if e.1 ∈ (alookup emb u).getD [] ∧ e.2 ∈ (alookup emb v).getD []
      then [e]
      else if e.1 ∈ (alookup emb v).getD [] ∧ e.2 ∈ (alookup emb u).getD []
      then [(e.2, e.1)]
      else [] := by
  rw [connEdges]
  by_cases hA : e.1 ∈ (alookup emb u).getD [] ∧ e.2 ∈ (alookup emb v).getD []
  · simp [hA]
  · by_cases hB :
      e.1 ∈ (alookup emb v).getD [] ∧ e.2 ∈ (alookup emb u).getD []
    · simp [hA, hB]
    · simp [hA, hB]

theorem edgeContribInter_head {emb : List (Var × List Node)} {u v : Var}
    {cu cv : List Node} (hG : GoodEmb emb) (hu : (u, cu) ∈ emb)
    (hv : (v, cv) ∈ emb) (huv : u ≠ v) (e : Node × Node) :
    (keyedPositions (edgeContribInter (buildLabels emb) e) u v).length =
      (keyedPositions (edgeContribInter (buildLabels emb) e) v u).length ∧
    (List.zip (keyedPositions (edgeContribInter (buildLabels emb) e) u v)
        (keyedPositions (edgeContribInter (buildLabels emb) e) v u)).map
      (fun ij => (cu.getD ij.1 0, cv.getD ij.2 0)) = connEdges emb u v [e] := by
  have hcu : alookup emb u = some cu := alookup_of_mem_nodup hG.1 hu
  have hcv : alookup emb v = some cv := alookup_of_mem_nodup hG.1 hv
  have hvu : v ≠ u := fun h => huv h.symm
  rcases h1 : dlookup (buildLabels emb) e.1 with _ | ⟨a, i⟩
  · have h1u : e.1 ∉ cu := not_mem_of_label_none h1 hu
    have h1v : e.1 ∉ cv := not_mem_of_label_none h1 hv
    simp [edgeContribInter, h1, keyedPositions, connEdges, hcu, hcv, h1u,
      h1v]
  rcases h2 : dlookup (buildLabels emb) e.2 with _ | ⟨b, j⟩
  · have h2u : e.2 ∉ cu := not_mem_of_label_none h2 hu
    have h2v : e.2 ∉ cv := not_mem_of_label_none h2 hv
    simp [edgeContribInter, h1, h2, keyedPositions, connEdges, hcu, hcv,
      h2u, h2v]
  by_cases hab : a = b
  · subst hab
    have hc1 : ¬(e.1 ∈ cu ∧ e.2 ∈ cv) := by
      by_cases hau : a = u
      · subst hau
        exact fun h => not_mem_of_label_ne hG hv h2 huv h.2
      · exact fun h => not_mem_of_label_ne hG hu h1 hau h.1
    have hc2 : ¬(e.1 ∈ cv ∧ e.2 ∈ cu) := by
      by_cases hav : a = v
      · subst hav
        exact fun h => not_mem_of_label_ne hG hu h2 hvu h.2
      · exact fun h => not_mem_of_label_ne hG hv h1 hav h.1
    simp [edgeContribInter, h1, h2, keyedPositions, connEdges, hcu, hcv,
      hc1, hc2]
  · by_cases hau : a = u
    · rw [hau] at h1 hab
      by_cases hbv : b = v
      · rw [hbv] at h2
        have he1 : cu[i]? = some e.1 := label_owner_getElem hG hu h1
        have he2 : cv[j]? = some e.2 := label_owner_getElem hG hv h2
        have hm1 : e.1 ∈ cu := List.getElem?_mem he1
        have hm2 : e.2 ∈ cv := List.getElem?_mem he2
        have hg1 : cu[i]?.getD 0 = e.1 := by rw [he1]; rfl
        have hg2 : cv[j]?.getD 0 = e.2 := by rw [he2]; rfl
        simp [edgeContribInter, h1, h2, hbv ▸ hab, keyedPositions,
          connEdges_singleton, hcu, hcv, hm1, hm2, hg1, hg2, huv, hvu,
          Prod.ext_iff]
      · have hn2v : e.2 ∉ cv := not_mem_of_label_ne hG hv h2 hbv
        have hn1v : e.1 ∉ cv := not_mem_of_label_ne hG hv h1 huv
        have hbu : b ≠ u := fun h => hab h.symm
        simp [edgeContribInter, h1, h2, hab, keyedPositions,
          connEdges_singleton, hcu, hcv, hn2v, hn1v, huv, hvu, hbv, hbu,
          Prod.ext_iff]
    · by_cases hav : a = v
      · rw [hav] at h1 hab
        by_cases hbu : b = u
        · rw [hbu] at h2
          have he1 : cv[i]? = some e.1 := label_owner_getElem hG hv h1
          have he2 : cu[j]? = some e.2 := label_owner_getElem hG hu h2
          have hm1 : e.1 ∈ cv := List.getElem?_mem he1
          have hm2 : e.2 ∈ cu := List.getElem?_mem he2
          have hn1 : e.1 ∉ cu := not_mem_of_label_ne hG hu h1 hvu
          have hg1 : cv[i]?.getD 0 = e.1 := by rw [he1]; rfl
          have hg2 : cu[j]?.getD 0 = e.2 := by rw [he2]; rfl
          simp [edgeContribInter, h1, h2, hbu ▸ hab, keyedPositions,
            connEdges_singleton, hcu, hcv, hm1, hm2, hn1, hg1, hg2, huv,
            hvu, Prod.ext_iff]
        · have hn1u : e.1 ∉ cu := not_mem_of_label_ne hG hu h1 hvu
          have hn2u : e.2 ∉ cu := not_mem_of_label_ne hG hu h2 hbu
          have hbv : b ≠ v := fun h => hab (h ▸ rfl)
          simp [edgeContribInter, h1, h2, hab, keyedPositions,
            connEdges_singleton, hcu, hcv, hn1u, hn2u, huv, hvu, hbu, hbv,
            Prod.ext_iff]
      · have hn1u : e.1 ∉ cu := not_mem_of_label_ne hG hu h1 hau
        have hn1v : e.1 ∉ cv := not_mem_of_label_ne hG hv h1 hav
        simp [edgeContribInter, h1, h2, hab, keyedPositions,
          connEdges_singleton, hcu, hcv, hn1u, hn1v, hau, hav,
          Prod.ext_iff]

theorem interContrib_char {emb : List (Var × List Node)} {u v : Var}
    {cu cv : List Node} (hG : GoodEmb emb) (hu : (u, cu) ∈ emb)
    (hv : (v, cv) ∈ emb) (huv : u ≠ v) (edges : List (Node × Node)) :
    (keyedPositions ((edges.map (edgeContribInter (buildLabels emb))).flatten)
        u v).length =
      (keyedPositions
        ((edges.map (edgeContribInter (buildLabels emb))).flatten) v u).length ∧
    (List.zip
        (keyedPositions
          ((edges.map (edgeContribInter (buildLabels emb))).flatten) u v)
        (keyedPositions
          ((edges.map (edgeContribInter (buildLabels emb))).flatten) v u)).map
      (fun ij => (cu.getD ij.1 0, cv.getD ij.2 0)) =
      connEdges emb u v edges := by
  induction edges with
  | nil => exact ⟨rfl, rfl⟩
  | cons e rest ih =>
    have hhead := edgeContribInter_head hG hu hv huv e
    have hcons : (e :: rest) = [e] ++ rest := rfl
    rw [List.map_cons, List.flatten_cons, keyedPositions_append,
      keyedPositions_append, hcons, connEdges_append]
    have hone : connEdges emb u v [e] =
        (List.zip (keyedPositions (edgeContribInter (buildLabels emb) e) u v)
          (keyedPositions (edgeContribInter (buildLabels emb) e) v u)).map
        (fun ij => (cu.getD ij.1 0, cv.getD ij.2 0)) := hhead.2.symm
    constructor
    · rw [List.length_append, List.length_append, hhead.1, ih.1]
    · rw [List.zip_append hhead.1, List.map_append, hone, ih.2]

/-- The main structural fact about a successfully built structure: the two
interaction lists for `(u, v)` and `(v, u)` have equal length, and
`interaction_edge_iter` realizes exactly the target edges connecting the two
chains, each oriented `u`-side first. -/
theorem interaction_edges_char {edges : List (Node × Node)}
    {emb : List (Var × List Node)} {es : EmbeddedStructure} {u v : Var}
    {cu cv : List Node} (hG : GoodEmb emb)
    (hok : EmbeddedStructure.ofEdges edges emb = .ok es)
    (hu : (u, cu) ∈ emb) (hv : (v, cv) ∈ emb) (huv : u ≠ v) :
    (interList es u v).length = (interList es v u).length ∧
    interactionEdgeIter es u v = connEdges emb u v edges := by
  obtain ⟨hemb, -, hie⟩ := ofEdges_ok_elim hok
  have hcu : alookup emb u = some cu := alookup_of_mem_nodup hG.1 hu
  have hcv : alookup emb v = some cv := alookup_of_mem_nodup hG.1 hv
  have hmain := interContrib_char hG hu hv huv edges
  have hl1 : interList es u v =
      keyedPositions
        ((edges.map (edgeContribInter (buildLabels emb))).flatten) u v := by
    rw [interList, keyedPositions, hie]
  have hl2 : interList es v u =
      keyedPositions
        ((edges.map (edgeContribInter (buildLabels emb))).flatten) v u := by
    rw [interList, keyedPositions, hie]
  refine ⟨by rw [hl1, hl2]; exact hmain.1, ?_⟩
  rw [interactionEdgeIter, hemb, hcu, hcv, hl1, hl2]
  exact hmain.2

/-! ## Error-check lemmas for the builder -/

theorem firstEmpty_eq_none_iff {emb : List (Var × List Node)} :
    firstEmpty emb = none ↔ ∀ p ∈ emb, p.2 ≠ [] := by
  induction emb with
  | nil => simp [firstEmpty]
  | cons p t ih =>
    cases p with
    | mk u c =>
      rw [firstEmpty]
      by_cases hc : c = [] <;> simp [hc, ih]

theorem firstEmpty_some_mem {emb : List (Var × List Node)} {w : Var}
    (h : firstEmpty emb = some w) : (w, ([] : List Node)) ∈ emb := by
  induction emb with
  | nil => simp [firstEmpty] at h
  | cons p t ih =>
    cases p with
    | mk u c =>
      rw [firstEmpty] at h
      by_cases hc : c = []
      · rw [if_pos hc] at h
        injection h with h
        subst h; subst hc
        exact List.mem_cons_self _ _
      · rw [if_neg hc] at h
        exact List.mem_cons_of_mem _ (ih h)

theorem firstDisconnected_eq_none_iff {emb : List (Var × List Node)}
    {ufs : List (Var × List Nat)} :
    firstDisconnected emb ufs = none ↔
      ∀ p ∈ emb, p.2.length = ufSize0 ((alookup ufs p.1).getD []) := by
  induction emb with
  | nil => simp [firstDisconnected]
  | cons p t ih =>
    cases p with
    | mk u c =>
      rw [firstDisconnected]
      by_cases hc : c.length ≠ ufSize0 ((alookup ufs u).getD [])
      · rw [if_pos hc]
        constructor
        · intro h; exact absurd h (by simp)
        · intro h
          exact absurd (h (u, c) (List.mem_cons_self _ _)) hc
      · rw [if_neg hc, ih]
        constructor
        · intro h p hp
          rcases List.mem_cons.mp hp with hp | hp
          · subst hp
            exact not_not.mp hc
          · exact h p hp
        · intro h p hp
          exact h p (List.mem_cons_of_mem _ hp)

theorem firstDisconnected_some_mem {emb : List (Var × List Node)}
    {ufs : List (Var × List Nat)} {w : Var}
    (h : firstDisconnected emb ufs = some w) :
    ∃ c, (w, c) ∈ emb ∧ c.length ≠ ufSize0 ((alookup ufs w).getD []) := by
  induction emb with
  | nil => simp [firstDisconnected] at h
  | cons p t ih =>
    cases p with
    | mk u c =>
      rw [firstDisconnected] at h
      by_cases hc : c.length ≠ ufSize0 ((alookup ufs u).getD [])
      · rw [if_pos hc] at h
        injection h with h
        subst h
        exact ⟨c, List.mem_cons_self _ _, hc⟩
      · rw [if_neg hc] at h
        rcases ih h with ⟨c', hc', hne⟩
        exact ⟨c', List.mem_cons_of_mem _ hc', hne⟩

theorem ufUnion_singleton (i j : Nat) : ufUnion [0] i j = [0] := by
  have hgd : ∀ k, ([0] : List Nat).getD k 0 = 0 := by
    intro k; cases k <;> rfl
  simp [ufUnion, hgd]

theorem chainConn_one (pairs : List (Nat × Nat)) : chainConn 1 pairs := by
  have happ : applyUnions pairs [0] = [0] := by
    induction pairs with
    | nil => rfl
    | cons ij rest ih =>
      rw [applyUnions, List.foldl_cons, ufUnion_singleton]
      exact ih
  have h0 : ufInit 1 = [0] := rfl
  rw [chainConn, h0, happ]
  rfl

/-- The union-find state a successful scan leaves for variable `u`. -/
theorem scan_final_uf (emb : List (Var × List Node))
    (edges : List (Node × Node)) (u : Var) :
    alookup ((edges.foldl (scanEdge (buildLabels emb))
        (initState emb)).ufs) u =
      (alookup emb u).map
        (fun ch => applyUnions (intraPairs (buildLabels emb) edges u)
          (ufInit ch.length)) := by
  rw [scan_ufs_lookup]
  have hinit : alookup (initState emb).ufs u =
      (alookup emb u).map (fun ch => ufInit ch.length) := by
    rw [initState]
    exact alookup_map_val (fun ch : List Node => ufInit ch.length)
  rw [hinit]
  cases alookup emb u <;> rfl

theorem pairCount_cons (e : Node × Node) (L : List (Node × Node))
    (x y : Node) :
    pairCount (e :: L) x y =
      (if (x = e.1 ∧ y = e.2) ∨ (x = e.2 ∧ y = e.1) then 1 else 0) +
        pairCount L x y := by
  rw [pairCount, pairCount, List.filter_cons]
  by_cases h : (x = e.1 ∧ y = e.2) ∨ (x = e.2 ∧ y = e.1) <;>
    simp [h, Nat.add_comm]

theorem length_filter_cons {α : Type} (p : α → Bool) (a : α) (l : List α) :
    ((a :: l).filter p).length =
      (if p a = true then 1 else 0) + (l.filter p).length := by
  rw [List.filter_cons]
  by_cases h : p a = true
  · rw [if_pos h, if_pos h, List.length_cons]; omega
  · rw [if_neg h, if_neg h]; omega

theorem endCount_cons (e : Node × Node) (L : List (Node × Node)) (n : Node) :
    endCount (e :: L) n =
      ((if n = e.1 then 1 else 0) + (if n = e.2 then 1 else 0)) +
        endCount L n := by
  rw [endCount, endCount, length_filter_cons, length_filter_cons]
  simp only [decide_eq_true_eq]
  by_cases h1 : n = e.1 <;> by_cases h2 : n = e.2
  · rw [if_pos h1, if_pos h2]; omega
  · rw [if_pos h1, if_neg h2]; omega
  · rw [if_neg h1, if_pos h2]; omega
  · rw [if_neg h1, if_neg h2]; omega

theorem addVars_fold_lin (ks : List Node) (hk : ks.Nodup) (m : TBQM)
    (b : ℚ) (w : Node) :
    (ks.foldl (fun m u => addVariable m u b) m).lin w =
      m.lin w + (if w ∈ ks then b else 0) := by
  induction ks generalizing m with
  | nil => simp
  | cons k rest ih =>
    rw [List.foldl_cons]
    rw [List.nodup_cons] at hk
    rw [ih hk.2]
    by_cases hw : w = k
    · subst hw
      have hwr : w ∉ rest := hk.1
      simp [addVariable, hwr]
    · simp [addVariable, hw, List.mem_cons]

theorem addVars_fold_quad (ks : List Node) (m : TBQM) (b : ℚ)
    (x y : Node) :
    (ks.foldl (fun m u => addVariable m u b) m).quad x y = m.quad x y := by
  induction ks generalizing m with
  | nil => rfl
  | cons k rest ih => rw [List.foldl_cons, ih]; rfl

theorem addVars_fold_offset (ks : List Node) (m : TBQM) (b : ℚ) :
    (ks.foldl (fun m u => addVariable m u b) m).offset = m.offset := by
  induction ks generalizing m with
  | nil => rfl
  | cons k rest ih => rw [List.foldl_cons, ih]; rfl

theorem addVars_fold_vartype (ks : List Node) (m : TBQM) (b : ℚ) :
    (ks.foldl (fun m u => addVariable m u b) m).vartype = m.vartype := by
  induction ks generalizing m with
  | nil => rfl
  | cons k rest ih => rw [List.foldl_cons, ih]; rfl

theorem addInters_fold_quad (L : List (Node × Node)) (m : TBQM) (b : ℚ)
    (x y : Node) :
    (L.foldl (fun m e => addInteraction m e.1 e.2 b) m).quad x y =
      m.quad x y + b * (pairCount L x y : ℚ) := by
  induction L generalizing m with
  | nil => simp [pairCount]
  | cons e rest ih =>
    rw [List.foldl_cons, ih, pairCount_cons]
    by_cases h : (x = e.1 ∧ y = e.2) ∨ (x = e.2 ∧ y = e.1)
    · rw [if_pos h]
      simp only [addInteraction, if_pos h]
      push_cast
      ring
    · rw [if_neg h]
      simp only [addInteraction, if_neg h]
      push_cast
      ring

theorem addInters_fold_lin (L : List (Node × Node)) (m : TBQM) (b : ℚ)
    (n : Node) :
    (L.foldl (fun m e => addInteraction m e.1 e.2 b) m).lin n = m.lin n := by
  induction L generalizing m with
  | nil => rfl
  | cons e rest ih => rw [List.foldl_cons, ih]; rfl

theorem addInters_fold_offset (L : List (Node × Node)) (m : TBQM) (b : ℚ) :
    (L.foldl (fun m e => addInteraction m e.1 e.2 b) m).offset =
      m.offset := by
  induction L generalizing m with
  | nil => rfl
  | cons e rest ih => rw [List.foldl_cons, ih]; rfl

theorem addInters_fold_vartype (L : List (Node × Node)) (m : TBQM) (b : ℚ) :
    (L.foldl (fun m e => addInteraction m e.1 e.2 b) m).vartype =
      m.vartype := by
  induction L generalizing m with
  | nil => rfl
  | cons e rest ih => rw [List.foldl_cons, ih]; rfl

/-! ## Characterizing the linear and quadratic passes -/

theorem except_bind_ok {ε α β : Type} (a : α) (f : α → Except ε β) :
    (Except.ok a : Except ε α) >>= f = f a := rfl

theorem except_bind_error {ε α β : Type} (e : ε) (f : α → Except ε β) :
    (Except.error e : Except ε α) >>= f = .error e := rfl

theorem linSteps_ok_char (es : EmbeddedStructure) (items : List (Var × ℚ))
    (m : TBQM) (hch : ∀ p ∈ items, (alookup es.embedding p.1).isSome) :
    ∃ t, items.foldlM (linStep es) m = .ok t ∧
      (∀ n, t.lin n = m.lin n + linContrib es items n) ∧
      (∀ x y, t.quad x y = m.quad x y) ∧
      t.offset = m.offset ∧ t.vartype = m.vartype := by
  induction items generalizing m with
  | nil =>
    exact ⟨m, rfl, fun n => by simp [linContrib], fun x y => rfl, rfl, rfl⟩
  | cons p rest ih =>
    rcases hlk : alookup es.embedding p.1 with _ | ch
    · exact absurd (hch p (List.mem_cons_self _ _))
        (by rw [hlk]; simp)
    · have hstep : linStep es m p =
          .ok ((dedupKeep ch).foldl
            (fun m u => addVariable m u (p.2 / (ch.length : ℚ))) m) := by
        rw [linStep, hlk]
      rcases ih ((dedupKeep ch).foldl
          (fun m u => addVariable m u (p.2 / (ch.length : ℚ))) m)
          (fun q hq => hch q (List.mem_cons_of_mem _ hq)) with
        ⟨t, hok, hlin, hquad, hoff, hvt⟩
      refine ⟨t, ?_, ?_, ?_, ?_, ?_⟩
      · rw [List.foldlM_cons, hstep, except_bind_ok]
        exact hok
      · intro n
        rw [hlin n, addVars_fold_lin _ (nodup_dedupKeep ch)]
        have hmem : (if n ∈ dedupKeep ch then p.2 / (ch.length : ℚ) else 0)
            = (if n ∈ ch then p.2 / (ch.length : ℚ) else 0) := by
          by_cases hn : n ∈ ch
          · rw [if_pos ((mem_dedupKeep ch n).mpr hn), if_pos hn]
          · rw [if_neg (fun hx => hn ((mem_dedupKeep ch n).mp hx)),
              if_neg hn]
        rw [hmem]
        simp only [linContrib, List.map_cons, List.sum_cons, hlk]
        ring
      · intro x y
        rw [hquad x y, addVars_fold_quad]
      · rw [hoff, addVars_fold_offset]
      · rw [hvt, addVars_fold_vartype]

theorem linSteps_error (es : EmbeddedStructure) (items : List (Var × ℚ))
    (m : TBQM) (h : ∃ p ∈ items, alookup es.embedding p.1 = none) :
    ∃ w, alookup es.embedding w = none ∧
      items.foldlM (linStep es) m = .error (.missingChain w) := by
  induction items generalizing m with
  | nil => simp at h
  | cons p rest ih =>
    rcases hlk : alookup es.embedding p.1 with _ | ch
    · refine ⟨p.1, hlk, ?_⟩
      rw [List.foldlM_cons]
      have hstep : linStep es m p = .error (.missingChain p.1) := by
        rw [linStep, hlk]
      rw [hstep, except_bind_error]
    · have hstep : linStep es m p =
          .ok ((dedupKeep ch).foldl
            (fun m u => addVariable m u (p.2 / (ch.length : ℚ))) m) := by
        rw [linStep, hlk]
      have hrest : ∃ q ∈ rest, alookup es.embedding q.1 = none := by
        rcases h with ⟨q, hq, hnone⟩
        rcases List.mem_cons.mp hq with hq | hq
        · subst hq; rw [hlk] at hnone; cases hnone
        · exact ⟨q, hq, hnone⟩
      rcases ih _ hrest with ⟨w, hw, herr⟩
      refine ⟨w, hw, ?_⟩
      rw [List.foldlM_cons, hstep, except_bind_ok]
      exact herr

theorem linSteps_error_inv (es : EmbeddedStructure)
    (items : List (Var × ℚ)) (m : TBQM) (e : Err)
    (h : items.foldlM (linStep es) m = .error e) :
    ∃ p ∈ items, e = .missingChain p.1 ∧
      alookup es.embedding p.1 = none := by
  induction items generalizing m with
  | nil => simp [List.foldlM_nil] at h; cases h
  | cons p rest ih =>
    rw [List.foldlM_cons] at h
    rcases hlk : alookup es.embedding p.1 with _ | ch
    · have hstep : linStep es m p = .error (.missingChain p.1) := by
        rw [linStep, hlk]
      rw [hstep, except_bind_error] at h
      injection h with h
      exact ⟨p, List.mem_cons_self _ _, h.symm, hlk⟩
    · have hstep : linStep es m p =
          .ok ((dedupKeep ch).foldl
            (fun m u => addVariable m u (p.2 / (ch.length : ℚ))) m) := by
        rw [linStep, hlk]
      rw [hstep, except_bind_ok] at h
      rcases ih _ h with ⟨q, hq, he, hn⟩
      exact ⟨q, List.mem_cons_of_mem _ hq, he, hn⟩

theorem quadSteps_ok_char (es : EmbeddedStructure)
    (items : List ((Var × Var) × ℚ)) (m : TBQM)
    (h : ∀ p ∈ items, (interactionEdgeIter es p.1.1 p.1.2).isEmpty = false) :
    ∃ t, items.foldlM (quadStep es) m = .ok t ∧
      (∀ x y, t.quad x y = m.quad x y + quadContrib es items x y) ∧
      (∀ n, t.lin n = m.lin n) ∧
      t.offset = m.offset ∧ t.vartype = m.vartype := by
  induction items generalizing m with
  | nil =>
    exact ⟨m, rfl, fun x y => by simp [quadContrib], fun n => rfl, rfl, rfl⟩
  | cons p rest ih =>
    have hne := h p (List.mem_cons_self _ _)
    have hstep : quadStep es m p =
        .ok ((interactionEdgeIter es p.1.1 p.1.2).foldl
          (fun m e => addInteraction m e.1 e.2
            (p.2 / ((interactionEdgeIter es p.1.1 p.1.2).length : ℚ))) m) := by
      rw [quadStep, hne]
      rfl
    rcases ih ((interactionEdgeIter es p.1.1 p.1.2).foldl
        (fun m e => addInteraction m e.1 e.2
          (p.2 / ((interactionEdgeIter es p.1.1 p.1.2).length : ℚ))) m)
        (fun q hq => h q (List.mem_cons_of_mem _ hq)) with
      ⟨t, hok, hquad, hlin, hoff, hvt⟩
    refine ⟨t, ?_, ?_, ?_, ?_, ?_⟩
    · rw [List.foldlM_cons, hstep, except_bind_ok]
      exact hok
    · intro x y
      rw [hquad x y, addInters_fold_quad]
      simp only [quadContrib, List.map_cons, List.sum_cons, hne,
        Bool.false_eq_true, if_false]
      ring
    · intro n
      rw [hlin n, addInters_fold_lin]
    · rw [hoff, addInters_fold_offset]
    · rw [hvt, addInters_fold_vartype]

theorem quadSteps_error (es : EmbeddedStructure)
    (items : List ((Var × Var) × ℚ)) (m : TBQM)
    (h : ∃ p ∈ items, (interactionEdgeIter es p.1.1 p.1.2).isEmpty = true) :
    ∃ p ∈ items, (interactionEdgeIter es p.1.1 p.1.2).isEmpty = true ∧
      items.foldlM (quadStep es) m = .error (.missingEdge p.1.1 p.1.2) := by
  induction items generalizing m with
  | nil => simp at h
  | cons p rest ih =>
    by_cases hp : (interactionEdgeIter es p.1.1 p.1.2).isEmpty = true
    · refine ⟨p, List.mem_cons_self _ _, hp, ?_⟩
      have hstep : quadStep es m p = .error (.missingEdge p.1.1 p.1.2) := by
        rw [quadStep, hp]
        rfl
      rw [List.foldlM_cons, hstep, except_bind_error]
    · have hne : (interactionEdgeIter es p.1.1 p.1.2).isEmpty = false :=
        Bool.eq_false_iff.mpr hp
      have hstep : quadStep es m p =
          .ok ((interactionEdgeIter es p.1.1 p.1.2).foldl
            (fun m e => addInteraction m e.1 e.2
              (p.2 / ((interactionEdgeIter es p.1.1 p.1.2).length : ℚ)))
            m) := by
        rw [quadStep, hne]
        rfl
      have hrest : ∃ q ∈ rest,
          (interactionEdgeIter es q.1.1 q.1.2).isEmpty = true := by
        rcases h with ⟨q, hq, hqe⟩
        rcases List.mem_cons.mp hq with hq | hq
        · subst hq; exact absurd hqe hp
        · exact ⟨q, hq, hqe⟩
      rcases ih _ hrest with ⟨q, hq, hqe, herr⟩
      refine ⟨q, List.mem_cons_of_mem _ hq, hqe, ?_⟩
      rw [List.foldlM_cons, hstep, except_bind_ok]
      exact herr

theorem quadSteps_error_inv (es : EmbeddedStructure)
    (items : List ((Var × Var) × ℚ)) (m : TBQM) (e : Err)
    (h : items.foldlM (quadStep es) m = .error e) :
    ∃ p ∈ items, e = .missingEdge p.1.1 p.1.2 ∧
      (interactionEdgeIter es p.1.1 p.1.2).isEmpty = true := by
  induction items generalizing m with
  | nil => simp [List.foldlM_nil] at h; cases h
  | cons p rest ih =>
    rw [List.foldlM_cons] at h
    by_cases hp : (interactionEdgeIter es p.1.1 p.1.2).isEmpty = true
    · have hstep : quadStep es m p = .error (.missingEdge p.1.1 p.1.2) := by
        rw [quadStep, hp]
        rfl
      rw [hstep, except_bind_error] at h
      injection h with h
      exact ⟨p, List.mem_cons_self _ _, h.symm, hp⟩
    · have hne : (interactionEdgeIter es p.1.1 p.1.2).isEmpty = false :=
        Bool.eq_false_iff.mpr hp
      have hstep : quadStep es m p =
          .ok ((interactionEdgeIter es p.1.1 p.1.2).foldl
            (fun m e => addInteraction m e.1 e.2
              (p.2 / ((interactionEdgeIter es p.1.1 p.1.2).length : ℚ)))
            m) := by
        rw [quadStep, hne]
        rfl
      rw [hstep, except_bind_ok] at h
      rcases ih _ h with ⟨q, hq, he, hqe⟩
      exact ⟨q, List.mem_cons_of_mem _ hq, he, hqe⟩

/-! ## Characterizing the chain-penalty pass -/

theorem spinFold (L : List (Node × Node)) (cs : ℚ) (m : TBQM) :
    (L.foldl (fun m e => addOffset (addInteraction m e.1 e.2 (-cs)) cs)
        m).vartype = m.vartype ∧
    (∀ n, (L.foldl (fun m e => addOffset (addInteraction m e.1 e.2 (-cs)) cs)
        m).lin n = m.lin n) ∧
    (L.foldl (fun m e => addOffset (addInteraction m e.1 e.2 (-cs)) cs)
        m).offset = m.offset + cs * (L.length : ℚ) ∧
    (∀ x y, (L.foldl (fun m e => addOffset (addInteraction m e.1 e.2 (-cs)) cs)
        m).quad x y = m.quad x y - cs * (pairCount L x y : ℚ)) := by
  induction L generalizing m with
  | nil => exact ⟨rfl, fun n => rfl, by simp, fun x y => by simp [pairCount]⟩
  | cons e rest ih =>
    rw [List.foldl_cons]
    rcases ih (addOffset (addInteraction m e.1 e.2 (-cs)) cs) with
      ⟨hvt, hlin, hoff, hquad⟩
    refine ⟨hvt, fun n => hlin n, ?_, ?_⟩
    · rw [hoff]
      show m.offset + cs + cs * (rest.length : ℚ) = _
      rw [List.length_cons]
      push_cast
      ring
    · intro x y
      rw [hquad x y, pairCount_cons]
      by_cases h : (x = e.1 ∧ y = e.2) ∨ (x = e.2 ∧ y = e.1)
      · rw [if_pos h]
        have hq : (addOffset (addInteraction m e.1 e.2 (-cs)) cs).quad x y =
            m.quad x y + (-cs) := by
          simp [addOffset, addInteraction, h]
        rw [hq]
        push_cast
        ring
      · rw [if_neg h]
        have hq : (addOffset (addInteraction m e.1 e.2 (-cs)) cs).quad x y =
            m.quad x y := by
          simp [addOffset, addInteraction, h]
        rw [hq]
        push_cast
        ring

theorem binFold (L : List (Node × Node)) (cs : ℚ) (m : TBQM) :
    (L.foldl (fun m e =>
      addVariable (addVariable (addInteraction m e.1 e.2 (-(4 * cs))) e.1
        (2 * cs)) e.2 (2 * cs)) m).vartype = m.vartype ∧
    (L.foldl (fun m e =>
      addVariable (addVariable (addInteraction m e.1 e.2 (-(4 * cs))) e.1
        (2 * cs)) e.2 (2 * cs)) m).offset = m.offset ∧
    (∀ n, (L.foldl (fun m e =>
      addVariable (addVariable (addInteraction m e.1 e.2 (-(4 * cs))) e.1
        (2 * cs)) e.2 (2 * cs)) m).lin n =
        m.lin n + 2 * cs * (endCount L n : ℚ)) ∧
    (∀ x y, (L.foldl (fun m e =>
      addVariable (addVariable (addInteraction m e.1 e.2 (-(4 * cs))) e.1
        (2 * cs)) e.2 (2 * cs)) m).quad x y =
        m.quad x y - 4 * cs * (pairCount L x y : ℚ)) := by
  induction L generalizing m with
  | nil =>
    exact ⟨rfl, rfl, fun n => by simp [endCount],
      fun x y => by simp [pairCount]⟩
  | cons e rest ih =>
    rw [List.foldl_cons]
    rcases ih (addVariable (addVariable (addInteraction m e.1 e.2
        (-(4 * cs))) e.1 (2 * cs)) e.2 (2 * cs)) with
      ⟨hvt, hoff, hlin, hquad⟩
    refine ⟨hvt, hoff, ?_, ?_⟩
    · intro n
      rw [hlin n, endCount_cons]
      have hstep : (addVariable (addVariable (addInteraction m e.1 e.2
          (-(4 * cs))) e.1 (2 * cs)) e.2 (2 * cs)).lin n =
          m.lin n + (if n = e.1 then 2 * cs else 0) +
            (if n = e.2 then 2 * cs else 0) := by
        by_cases h1 : n = e.1 <;> by_cases h2 : n = e.2
        · have h12 : e.1 = e.2 := h1.symm.trans h2
          simp [addVariable, addInteraction, h1, h2, h12]
        · have h12 : ¬ e.1 = e.2 := fun h => h2 (h1.trans h)
          have h21 : ¬ e.2 = e.1 := fun h => h12 h.symm
          simp [addVariable, addInteraction, h1, h2, h12, h21]
        · have h21 : ¬ e.2 = e.1 := fun h => h1 (h2.trans h)
          have h12 : ¬ e.1 = e.2 := fun h => h21 h.symm
          simp [addVariable, addInteraction, h1, h2, h12, h21]
        · simp [addVariable, addInteraction, h1, h2]
      rw [hstep]
      push_cast
      by_cases h1 : n = e.1 <;> by_cases h2 : n = e.2
      · simp only [if_pos h1, if_pos h2]; ring
      · simp only [if_pos h1, if_neg h2]; ring
      · simp only [if_neg h1, if_pos h2]; ring
      · simp only [if_neg h1, if_neg h2]; ring
    · intro x y
      rw [hquad x y, pairCount_cons]
      by_cases h : (x = e.1 ∧ y = e.2) ∨ (x = e.2 ∧ y = e.1)
      · rw [if_pos h]
        have : (addVariable (addVariable (addInteraction m e.1 e.2
            (-(4 * cs))) e.1 (2 * cs)) e.2 (2 * cs)).quad x y =
            m.quad x y + (-(4 * cs)) := by
          simp [addVariable, addInteraction, h]
        rw [this]
        push_cast
        ring
      · rw [if_neg h]
        have : (addVariable (addVariable (addInteraction m e.1 e.2
            (-(4 * cs))) e.1 (2 * cs)) e.2 (2 * cs)).quad x y =
            m.quad x y := by
          simp [addVariable, addInteraction, h]
        rw [this]
        push_cast
        ring

theorem addVariable_zero_lin (m : TBQM) (v : Node) (n : Node) :
    (addVariable m v 0).lin n = m.lin n := by
  by_cases h : n = v <;> simp [addVariable, h]

/-- The combined effect of the chain-penalty fold over an item list: vartype
is preserved; in SPIN it leaves linear terms alone, adds
`cs · (number of intra-chain edges)` to the offset and `-cs` per realized
intra-chain edge to each pair; in BINARY it leaves the offset alone, adds
`2·cs` per incident intra-chain edge endpoint to each node and `-4·cs` per
realized intra-chain edge to each pair.  Size-1 chains contribute nothing. -/
theorem penaltySteps_char (es : EmbeddedStructure) (cs : ℚ)
    (items : List (Var × List Node)) (m : TBQM) :
    (items.foldl (penaltyStep es cs) m).vartype = m.vartype ∧
    (m.vartype = .SPIN →
      (∀ n, (items.foldl (penaltyStep es cs) m).lin n = m.lin n) ∧
      (items.foldl (penaltyStep es cs) m).offset = m.offset +
        cs * (((items.filter (fun p => ¬ p.2.length = 1)).map
          (fun p => ((chainEdgeIter es p.1).length : ℚ))).sum) ∧
      (∀ x y, (items.foldl (penaltyStep es cs) m).quad x y = m.quad x y -
        cs * (((items.filter (fun p => ¬ p.2.length = 1)).map
          (fun p => (pairCount (chainEdgeIter es p.1) x y : ℚ))).sum))) ∧
    (m.vartype = .BINARY →
      (items.foldl (penaltyStep es cs) m).offset = m.offset ∧
      (∀ n, (items.foldl (penaltyStep es cs) m).lin n = m.lin n +
        2 * cs * (((items.filter (fun p => ¬ p.2.length = 1)).map
          (fun p => (endCount (chainEdgeIter es p.1) n : ℚ))).sum)) ∧
      (∀ x y, (items.foldl (penaltyStep es cs) m).quad x y = m.quad x y -
        4 * cs * (((items.filter (fun p => ¬ p.2.length = 1)).map
          (fun p => (pairCount (chainEdgeIter es p.1) x y : ℚ))).sum))) := by
  induction items generalizing m with
  | nil =>
    exact ⟨rfl, fun _ => ⟨fun n => rfl, by simp, fun x y => by simp⟩,
      fun _ => ⟨rfl, fun n => by simp, fun x y => by simp⟩⟩
  | cons p rest ih =>
    rw [List.foldl_cons]
    by_cases hl : p.2.length = 1
    · have hstep : penaltyStep es cs m p = addVariable m (p.2.headD 0) 0 := by
        rw [penaltyStep, if_pos hl]
      rw [hstep]
      rcases ih (addVariable m (p.2.headD 0) 0) with ⟨hvt, hspin, hbin⟩
      have hvt0 : (addVariable m (p.2.headD 0) 0).vartype = m.vartype := rfl
      have hoff0 : (addVariable m (p.2.headD 0) 0).offset = m.offset := rfl
      have hquad0 : ∀ x y,
          (addVariable m (p.2.headD 0) 0).quad x y = m.quad x y :=
        fun x y => rfl
      have hfil : (p :: rest).filter
          (fun p : Var × List Node => ¬ p.2.length = 1) =
          rest.filter (fun p : Var × List Node => ¬ p.2.length = 1) := by
        simp [List.filter_cons, hl]
      rw [hfil]
      refine ⟨hvt.trans hvt0, ?_, ?_⟩
      · intro hm
        rcases hspin (hvt0.trans hm) with ⟨hlin, hoff, hquad⟩
        exact ⟨fun n => (hlin n).trans (addVariable_zero_lin m _ n),
          by rw [hoff, hoff0],
          fun x y => by rw [hquad x y, hquad0 x y]⟩
      · intro hm
        rcases hbin (hvt0.trans hm) with ⟨hoff, hlin, hquad⟩
        exact ⟨by rw [hoff, hoff0],
          fun n => by rw [hlin n, addVariable_zero_lin m _ n],
          fun x y => by rw [hquad x y, hquad0 x y]⟩
    · have hfil : (p :: rest).filter
          (fun p : Var × List Node => ¬ p.2.length = 1) =
          p :: rest.filter (fun p : Var × List Node => ¬ p.2.length = 1) := by
        simp [List.filter_cons, hl]
      rw [hfil]
      by_cases hmv : m.vartype = Vartype.SPIN
      · have hstep : penaltyStep es cs m p =
            (chainEdgeIter es p.1).foldl
              (fun m e => addOffset (addInteraction m e.1 e.2 (-cs)) cs) m := by
          rw [penaltyStep, if_neg hl, if_pos hmv]
        rw [hstep]
        rcases spinFold (chainEdgeIter es p.1) cs m with
          ⟨fvt, flin, foff, fquad⟩
        rcases ih ((chainEdgeIter es p.1).foldl
            (fun m e => addOffset (addInteraction m e.1 e.2 (-cs)) cs) m) with
          ⟨hvt, hspin, hbin⟩
        refine ⟨hvt.trans fvt, ?_, ?_⟩
        · intro hm
          rcases hspin (fvt.trans hm) with ⟨hlin, hoff, hquad⟩
          refine ⟨fun n => (hlin n).trans (flin n), ?_, ?_⟩
          · rw [hoff, foff, List.map_cons, List.sum_cons]
            ring
          · intro x y
            rw [hquad x y, fquad x y, List.map_cons, List.sum_cons]
            ring
        · intro hm
          exact absurd hmv (by rw [hm]; intro h; cases h)
      · have hmb : m.vartype = Vartype.BINARY := by
          cases hv : m.vartype
          · exact absurd hv hmv
          · rfl
        have hstep : penaltyStep es cs m p =
            (chainEdgeIter es p.1).foldl
              (fun m e => addVariable (addVariable
                (addInteraction m e.1 e.2 (-(4 * cs))) e.1 (2 * cs)) e.2
                (2 * cs)) m := by
          rw [penaltyStep, if_neg hl, if_neg hmv]
        rw [hstep]
        rcases binFold (chainEdgeIter es p.1) cs m with
          ⟨fvt, foff, flin, fquad⟩
        rcases ih ((chainEdgeIter es p.1).foldl
            (fun m e => addVariable (addVariable
              (addInteraction m e.1 e.2 (-(4 * cs))) e.1 (2 * cs)) e.2
              (2 * cs)) m) with ⟨hvt, hspin, hbin⟩
        refine ⟨hvt.trans fvt, ?_, ?_⟩
        · intro hm
          exact absurd hm hmv
        · intro hm
          rcases hbin (fvt.trans hm) with ⟨hoff, hlin, hquad⟩
          refine ⟨by rw [hoff, foff], ?_, ?_⟩
          · intro n
            rw [hlin n, flin n, List.map_cons, List.sum_cons]
            ring
          · intro x y
            rw [hquad x y, fquad x y, List.map_cons, List.sum_cons]
            ring

/-! ## Characterizing the intra-chain edge iterator -/

theorem filter_cons_append {α : Type} (p : α → Bool) (a : α) (l : List α) :
    (a :: l).filter p = (if p a then [a] else []) ++ l.filter p := by
  rw [List.filter_cons]
  by_cases h : p a <;> simp [h]

theorem chainContrib_char {emb : List (Var × List Node)} {w : Var}
    {cw : List Node} (hG : GoodEmb emb) (hw : (w, cw) ∈ emb)
    (edges : List (Node × Node)) :
    (((edges.map (edgeContribChain (buildLabels emb))).flatten.filter
        (fun t => t.1 = w)).map
      (fun t => (cw.getD t.2.1 0, cw.getD t.2.2 0))) =
      edges.filter (fun ed => ed.1 ∈ cw ∧ ed.2 ∈ cw) := by
  induction edges with
  | nil => rfl
  | cons ed rest ih =>
    rw [List.map_cons, List.flatten_cons, List.filter_append,
      List.map_append, filter_cons_append, ih]
    congr 1
    rcases h1 : dlookup (buildLabels emb) ed.1 with _ | ⟨a, i⟩
    · have hn : ed.1 ∉ cw := not_mem_of_label_none h1 hw
      simp [edgeContribChain, h1, hn]
    rcases h2 : dlookup (buildLabels emb) ed.2 with _ | ⟨b, j⟩
    · have hn : ed.2 ∉ cw := not_mem_of_label_none h2 hw
      simp [edgeContribChain, h1, h2, hn]
    by_cases hab : a = b
    · by_cases haw : a = w
      · rw [haw] at h1
        rw [hab.symm.trans haw] at h2
        have he1 : cw[i]? = some ed.1 := label_owner_getElem hG hw h1
        have he2 : cw[j]? = some ed.2 := label_owner_getElem hG hw h2
        have hm1 : ed.1 ∈ cw := List.getElem?_mem he1
        have hm2 : ed.2 ∈ cw := List.getElem?_mem he2
        have hg1 : cw[i]?.getD 0 = ed.1 := by rw [he1]; rfl
        have hg2 : cw[j]?.getD 0 = ed.2 := by rw [he2]; rfl
        simp [edgeContribChain, h1, h2, hab, haw, hm1, hm2, hg1, hg2,
          Prod.ext_iff]
      · have hn : ed.1 ∉ cw := not_mem_of_label_ne hG hw h1 haw
        have hbw : ¬ b = w := hab ▸ haw
        simp [edgeContribChain, h1, h2, hab, haw, hbw, hn]
    · have hnm : ¬ (ed.1 ∈ cw ∧ ed.2 ∈ cw) := by
        rintro ⟨hm1, hm2⟩
        by_cases haw : a = w
        · have hbw : b ≠ w := fun h => hab (haw.trans h.symm)
          exact not_mem_of_label_ne hG hw h2 hbw hm2
        · exact not_mem_of_label_ne hG hw h1 haw hm1
      simp [edgeContribChain, h1, h2, hab, hnm]

/-- `chain_edge_iter w` on a successfully built structure is exactly the
sublist of target edges with both endpoints in `w`'s chain, in scan order
and original orientation. -/
theorem chainEdgeIter_char {emb edges : List _} {es : EmbeddedStructure}
    {w : Var} {cw : List Node} (hG : GoodEmb emb)
    (hok : EmbeddedStructure.ofEdges edges emb = .ok es)
    (hw : (w, cw) ∈ emb) :
    chainEdgeIter es w = edges.filter (fun ed => ed.1 ∈ cw ∧ ed.2 ∈ cw) := by
  obtain ⟨hemb, hch, -⟩ := ofEdges_ok_elim hok
  have hcw : alookup emb w = some cw := alookup_of_mem_nodup hG.1 hw
  rw [chainEdgeIter, hemb, hcw, hch]
  exact chainContrib_char hG hw edges

theorem chainEdgeIter_subset {emb edges : List _} {es : EmbeddedStructure}
    {w : Var} {cw : List Node} (hG : GoodEmb emb)
    (hok : EmbeddedStructure.ofEdges edges emb = .ok es)
    (hw : (w, cw) ∈ emb) :
    ∀ e ∈ chainEdgeIter es w, e.1 ∈ cw ∧ e.2 ∈ cw := by
  intro e he
  rw [chainEdgeIter_char hG hok hw] at he
  have := List.of_mem_filter he
  simpa using this

theorem chainEdgeIter_pairwise {emb edges : List _} {es : EmbeddedStructure}
    {w : Var} {cw : List Node} (hG : GoodEmb emb) (hGE : GoodEdges edges)
    (hok : EmbeddedStructure.ofEdges edges emb = .ok es)
    (hw : (w, cw) ∈ emb) :
    List.Pairwise (fun a b => a ≠ b ∧ a ≠ (b.2, b.1))
      (chainEdgeIter es w) := by
  rw [chainEdgeIter_char hG hok hw]
  exact List.Pairwise.sublist (List.filter_sublist edges) hGE.2

theorem chainEdgeIter_mem_edges {emb edges : List _} {es : EmbeddedStructure}
    {w : Var} {cw : List Node} (hG : GoodEmb emb)
    (hok : EmbeddedStructure.ofEdges edges emb = .ok es)
    (hw : (w, cw) ∈ emb) :
    ∀ e ∈ chainEdgeIter es w, e ∈ edges := by
  intro e he
  rw [chainEdgeIter_char hG hok hw] at he
  exact List.mem_of_mem_filter he

/-! ## Multiplicity lemmas -/

theorem pairCount_eq_zero (L : List (Node × Node)) (x y : Node)
    (h : ∀ a ∈ L, ¬((x = a.1 ∧ y = a.2) ∨ (x = a.2 ∧ y = a.1))) :
    pairCount L x y = 0 := by
  induction L with
  | nil => rfl
  | cons a rest ih =>
    rw [pairCount_cons, if_neg (h a (List.mem_cons_self _ _)),
      ih (fun b hb => h b (List.mem_cons_of_mem _ hb))]

theorem pairCount_eq_one (L : List (Node × Node)) (e : Node × Node)
    (hnd : List.Pairwise (fun a b => a ≠ b ∧ a ≠ (b.2, b.1)) L)
    (he : e ∈ L) : pairCount L e.1 e.2 = 1 := by
  induction L with
  | nil => cases he
  | cons a rest ih =>
    rw [pairCount_cons]
    rcases List.mem_cons.mp he with rfl | he
    · rw [if_pos (Or.inl ⟨rfl, rfl⟩)]
      have hz : pairCount rest e.1 e.2 = 0 := by
        apply pairCount_eq_zero
        intro b hb hcond
        have hr := (List.pairwise_cons.mp hnd).1 b hb
        rcases hcond with ⟨hx, hy⟩ | ⟨hx, hy⟩
        · exact hr.1 (Prod.ext_iff.mpr ⟨hx, hy⟩)
        · exact hr.2 (Prod.ext_iff.mpr ⟨hx, hy⟩)
      rw [hz]
    · have hr := (List.pairwise_cons.mp hnd).1 e he
      have hcond : ¬((e.1 = a.1 ∧ e.2 = a.2) ∨ (e.1 = a.2 ∧ e.2 = a.1)) := by
        rintro (⟨hx, hy⟩ | ⟨hx, hy⟩)
        · exact hr.1 (Prod.ext_iff.mpr ⟨hx.symm, hy.symm⟩)
        · exact hr.2 (Prod.ext_iff.mpr ⟨hy.symm, hx.symm⟩)
      rw [if_neg hcond, ih (List.pairwise_cons.mp hnd).2 he]

/-! ## More connEdges lemmas -/

theorem mem_connEdges {emb : List (Var × List Node)} {u v : Var}
    {edges : List (Node × Node)} {a : Node × Node}
    (ha : a ∈ connEdges emb u v edges) :
    a.1 ∈ (alookup emb u).getD [] ∧ a.2 ∈ (alookup emb v).getD [] := by
  simp only [connEdges] at ha
  rcases List.mem_filterMap.mp ha with ⟨ed, hed, hf⟩
  by_cases hA : ed.1 ∈ (alookup emb u).getD [] ∧
      ed.2 ∈ (alookup emb v).getD []
  · rw [if_pos hA] at hf
    injection hf with hf
    subst hf
    exact hA
  · rw [if_neg hA] at hf
    by_cases hB : ed.1 ∈ (alookup emb v).getD [] ∧
        ed.2 ∈ (alookup emb u).getD []
    · rw [if_pos hB] at hf
      injection hf with hf
      subst hf
      exact ⟨hB.2, hB.1⟩
    · rw [if_neg hB] at hf
      cases hf

theorem unordered_ne_helper {ed1 ed2 b1 b2 : Node × Node}
    (h1 : b1 = ed1 ∨ b1 = (ed1.2, ed1.1))
    (h2 : b2 = ed2 ∨ b2 = (ed2.2, ed2.1))
    (hne : ed1 ≠ ed2 ∧ ed1 ≠ (ed2.2, ed2.1)) :
    b1 ≠ b2 ∧ b1 ≠ (b2.2, b2.1) := by
  rcases h1 with rfl | rfl <;> rcases h2 with rfl | rfl
  · exact hne
  · exact ⟨hne.2, fun h => hne.1 (by rw [h])⟩
  · constructor
    · intro h
      exact hne.2 (Prod.ext_iff.mpr
        ⟨(Prod.ext_iff.mp h).2, (Prod.ext_iff.mp h).1⟩)
    · intro h
      exact hne.1 (Prod.ext_iff.mpr
        ⟨(Prod.ext_iff.mp h).2, (Prod.ext_iff.mp h).1⟩)
  · constructor
    · intro h
      exact hne.1 (Prod.ext_iff.mpr
        ⟨(Prod.ext_iff.mp h).2, (Prod.ext_iff.mp h).1⟩)
    · intro h
      exact hne.2 (Prod.ext_iff.mpr
        ⟨(Prod.ext_iff.mp h).2, (Prod.ext_iff.mp h).1⟩)

theorem connEdges_pairwise {edges : List (Node × Node)}
    (hGE : GoodEdges edges) (emb : List (Var × List Node)) (u v : Var) :
    List.Pairwise (fun a b => a ≠ b ∧ a ≠ (b.2, b.1))
      (connEdges emb u v edges) := by
  rw [connEdges]
  refine List.Pairwise.filterMap _ ?_ hGE.2
  intro ed1 ed2 hR b1 hb1 b2 hb2
  have hm1 : b1 = ed1 ∨ b1 = (ed1.2, ed1.1) := by
    by_cases hA : ed1.1 ∈ (alookup emb u).getD [] ∧
        ed1.2 ∈ (alookup emb v).getD []
    · rw [if_pos hA] at hb1
      cases hb1; exact Or.inl rfl
    · rw [if_neg hA] at hb1
      by_cases hB : ed1.1 ∈ (alookup emb v).getD [] ∧
          ed1.2 ∈ (alookup emb u).getD []
      · rw [if_pos hB] at hb1
        cases hb1; exact Or.inr rfl
      · rw [if_neg hB] at hb1
        cases hb1
  have hm2 : b2 = ed2 ∨ b2 = (ed2.2, ed2.1) := by
    by_cases hA : ed2.1 ∈ (alookup emb u).getD [] ∧
        ed2.2 ∈ (alookup emb v).getD []
    · rw [if_pos hA] at hb2
      cases hb2; exact Or.inl rfl
    · rw [if_neg hA] at hb2
      by_cases hB : ed2.1 ∈ (alookup emb v).getD [] ∧
          ed2.2 ∈ (alookup emb u).getD []
      · rw [if_pos hB] at hb2
        cases hb2; exact Or.inr rfl
      · rw [if_neg hB] at hb2
        cases hb2
  exact unordered_ne_helper hm1 hm2 hR

/-! ## Decomposing embed_bqm into its passes -/

theorem embed_bqm_ok_elim {src : SrcBQM} {es : EmbeddedStructure} {cs : ℚ}
    {t : TBQM} (h : embed_bqm src es cs = .ok t) :
    ∃ m1 m2, linearPass src es (initTarget src) = .ok m1 ∧
      quadraticPass src es m1 = .ok m2 ∧
      t = chainPenaltyPass es cs m2 := by
  unfold embed_bqm at h
  rcases hl : linearPass src es (initTarget src) with e | m1
  · simp only [hl, except_bind_error] at h
    exact Except.noConfusion h
  · simp only [hl, except_bind_ok] at h
    rcases hq : quadraticPass src es m1 with e | m2
    · simp only [hq, except_bind_error] at h
      exact Except.noConfusion h
    · simp only [hq, except_bind_ok] at h
      injection h with h
      exact ⟨m1, m2, rfl, hq, h.symm⟩

theorem embed_bqm_of_passes {src : SrcBQM} {es : EmbeddedStructure} {cs : ℚ}
    {m1 m2 : TBQM} (h1 : linearPass src es (initTarget src) = .ok m1)
    (h2 : quadraticPass src es m1 = .ok m2) :
    embed_bqm src es cs = .ok (chainPenaltyPass es cs m2) := by
  unfold embed_bqm
  simp only [h1, h2, except_bind_ok]

theorem embed_bqm_error_elim {src : SrcBQM} {es : EmbeddedStructure}
    {cs : ℚ} {e : Err} (h : embed_bqm src es cs = .error e) :
    linearPass src es (initTarget src) = .error e ∨
      ∃ m1, linearPass src es (initTarget src) = .ok m1 ∧
        quadraticPass src es m1 = .error e := by
  unfold embed_bqm at h
  rcases hl : linearPass src es (initTarget src) with e' | m1
  · simp only [hl, except_bind_error] at h
    injection h with h
    exact Or.inl (congrArg Except.error h)
  · simp only [hl, except_bind_ok] at h
    rcases hq : quadraticPass src es m1 with e' | m2
    · simp only [hq, except_bind_error] at h
      injection h with h
      exact Or.inr ⟨m1, rfl, hq.trans (congrArg Except.error h)⟩
    · simp only [hq, except_bind_ok] at h
      exact Except.noConfusion h

theorem embed_bqm_error_of_lin {src : SrcBQM} {es : EmbeddedStructure}
    {cs : ℚ} {e : Err} (h : linearPass src es (initTarget src) = .error e) :
    embed_bqm src es cs = .error e := by
  unfold embed_bqm
  simp only [h, except_bind_error]

theorem embed_bqm_error_of_quad {src : SrcBQM} {es : EmbeddedStructure}
    {cs : ℚ} {m1 : TBQM} {e : Err}
    (h1 : linearPass src es (initTarget src) = .ok m1)
    (h2 : quadraticPass src es m1 = .error e) :
    embed_bqm src es cs = .error e := by
  unfold embed_bqm
  simp only [h1, h2, except_bind_ok, except_bind_error]

theorem chainsFor_ok {emb : List (Var × List Node)} (vs : List Var)
    (hch : ∀ v ∈ vs, (alookup emb v).isSome) :
    chainsFor emb vs = .ok (vs.map (fun v => (alookup emb v).getD [])) := by
  induction vs with
  | nil => rfl
  | cons v rest ih =>
    rcases hv : alookup emb v with _ | ch
    · exact absurd (hch v (List.mem_cons_self _ _)) (by rw [hv]; simp)
    · rw [chainsFor, hv, ih (fun w hw => hch w (List.mem_cons_of_mem _ hw))]
      rw [List.map_cons, hv]
      rfl

theorem chainsFor_mismatch {emb : List (Var × List Node)} (vs : List Var)
    (h : ∃ v ∈ vs, alookup emb v = none) :
    chainsFor emb vs = .error .mismatch := by
  induction vs with
  | nil => simp at h
  | cons v rest ih =>
    rcases hv : alookup emb v with _ | ch
    · rw [chainsFor, hv]
    · have hrest : ∃ w ∈ rest, alookup emb w = none := by
        rcases h with ⟨w, hw, hwn⟩
        rcases List.mem_cons.mp hw with rfl | hw
        · rw [hv] at hwn; cases hwn
        · exact ⟨w, hw, hwn⟩
      rw [chainsFor, hv, ih hrest]
      rfl

theorem unembedSingle_ok (ts : SampleSet) (emb : List (Var × List Node))
    (bqm : SrcBQM) (cbm : ChainBreakMethod) (rows : List (List ℚ))
    (idxs : List Nat)
    (hch : ∀ v ∈ bqm.linear.map Prod.fst, (alookup emb v).isSome)
    (hcbm : cbm ts (chainsOf emb bqm) = .ok (rows, idxs)) :
    unembedSingle ts emb bqm cbm = .ok
      (fromSamplesBqm rows (bqm.linear.map Prod.fst) bqm
        (ts.vectors.map
          (fun p => (p.1, idxs.map (fun i => p.2.getD i 0))))) := by
  rw [unembedSingle, chainsFor_ok _ hch]
  have hco : ((bqm.linear.map Prod.fst).map
      (fun v => (alookup emb v).getD [])) = chainsOf emb bqm := rfl
  rw [hco]
  dsimp only
  rw [hcbm]

theorem unembedSingle_policy_error (ts : SampleSet)
    (emb : List (Var × List Node)) (bqm : SrcBQM) (cbm : ChainBreakMethod)
    (s : String)
    (hch : ∀ v ∈ bqm.linear.map Prod.fst, (alookup emb v).isSome)
    (hcbm : cbm ts (chainsOf emb bqm) = .error s) :
    unembedSingle ts emb bqm cbm = .error (.policy s) := by
  rw [unembedSingle, chainsFor_ok _ hch]
  have hco : ((bqm.linear.map Prod.fst).map
      (fun v => (alookup emb v).getD [])) = chainsOf emb bqm := rfl
  rw [hco]
  dsimp only
  rw [hcbm]

theorem unembedSingle_mismatch (ts : SampleSet)
    (emb : List (Var × List Node)) (bqm : SrcBQM) (cbm : ChainBreakMethod)
    (h : ∃ v ∈ bqm.linear.map Prod.fst, alookup emb v = none) :
    unembedSingle ts emb bqm cbm = .error .mismatch := by
  rw [unembedSingle, chainsFor_mismatch _ h]

theorem runPolicies_ok_forall (ts : SampleSet)
    (emb : List (Var × List Node)) (bqm : SrcBQM)
    (cbms : List ChainBreakMethod) (l : List SampleSet)
    (hl : runPolicies ts emb bqm cbms = .ok l) :
    List.Forall₂ (fun c s => unembedSingle ts emb bqm c = .ok s) cbms l := by
  induction cbms generalizing l with
  | nil =>
    rw [runPolicies] at hl
    injection hl with hl
    subst hl
    exact List.Forall₂.nil
  | cons cbm rest ih =>
    rw [runPolicies] at hl
    rcases hc : unembedSingle ts emb bqm cbm with e | s
    · rw [hc] at hl; cases hl
    · rw [hc] at hl
      rcases hr : runPolicies ts emb bqm rest with e | l'
      · rw [hr] at hl; cases hl
      · rw [hr] at hl
        injection hl with hl
        subst hl
        exact List.Forall₂.cons hc (ih l' hr)

theorem runPolicies_error (ts : SampleSet) (emb : List (Var × List Node))
    (bqm : SrcBQM) (pre : List ChainBreakMethod) (cbm : ChainBreakMethod)
    (post : List ChainBreakMethod) (e : Err)
    (hpre : ∀ c ∈ pre, ∃ s, unembedSingle ts emb bqm c = .ok s)
    (he : unembedSingle ts emb bqm cbm = .error e) :
    runPolicies ts emb bqm (pre ++ cbm :: post) = .error e := by
  induction pre with
  | nil =>
    rw [List.nil_append, runPolicies, he]
  | cons c pre' ih =>
    rw [List.cons_append, runPolicies]
    rcases hpre c (List.mem_cons_self _ _) with ⟨s, hs⟩
    rw [hs, ih (fun c' hc' => hpre c' (List.mem_cons_of_mem _ hc'))]
    rfl

theorem unembedMulti_ok (ts : SampleSet) (emb : List (Var × List Node))
    (bqm : SrcBQM) (cbms : List ChainBreakMethod) (l : List SampleSet)
    (hl : runPolicies ts emb bqm cbms = .ok l) :
    unembedMulti ts emb bqm cbms = .ok
      (appendField (concatenateSS l) "chain_break_method" (cbmIdxs l)) := by
  rw [unembedMulti, hl]

theorem unembedMulti_error (ts : SampleSet) (emb : List (Var × List Node))
    (bqm : SrcBQM) (pre : List ChainBreakMethod) (cbm : ChainBreakMethod)
    (post : List ChainBreakMethod) (e : Err)
    (hpre : ∀ c ∈ pre, ∃ s, unembedSingle ts emb bqm c = .ok s)
    (he : unembedSingle ts emb bqm cbm = .error e) :
    unembedMulti ts emb bqm (pre ++ cbm :: post) = .error e := by
  rw [unembedMulti, runPolicies_error ts emb bqm pre cbm post e hpre he]

theorem concatenateSS_cons (h : SampleSet) (t : List SampleSet) :
    (concatenateSS (h :: t)).samples =
      ((h :: t).map (fun s => s.samples)).flatten ∧
    (concatenateSS (h :: t)).energies =
      ((h :: t).map (fun s => s.energies)).flatten ∧
    (concatenateSS (h :: t)).vars = h.vars := ⟨rfl, rfl, rfl⟩

theorem chainConn_zero (pairs : List (Nat × Nat)) : chainConn 0 pairs := by
  have happ : applyUnions pairs [] = [] := by
    induction pairs with
    | nil => rfl
    | cons ij rest ih =>
      rw [applyUnions, List.foldl_cons]
      have hu : ufUnion [] ij.1 ij.2 = [] := rfl
      rw [hu]
      exact ih
  rw [chainConn]
  have h0 : ufInit 0 = [] := rfl
  rw [h0, happ]
  rfl

theorem mem_unique_chain {emb : List (Var × List Node)} {u w : Var}
    {cu cw : List Node} {x : Node} (hG : GoodEmb emb) (hu : (u, cu) ∈ emb)
    (hw : (w, cw) ∈ emb) (hx : x ∈ cu) (hx' : x ∈ cw) : u = w := by
  by_contra hne
  exact goodEmb_disjoint hG hu hw hne x hx hx'

theorem entry_eq_of_fst {emb : List (Var × List Node)} {b : Var × List Node}
    {v : Var} {ch : List Node} (hG : GoodEmb emb) (hb : b ∈ emb)
    (hbv : b.1 = v) (hv : alookup emb v = some ch) : b = (v, ch) := by
  have hb' : (b.1, b.2) ∈ emb := hb
  have := alookup_of_mem_nodup hG.1 hb'
  rw [hbv, hv] at this
  injection this with this
  rw [← hbv, this]

theorem goodEmb_nodup {emb : List (Var × List Node)} (hG : GoodEmb emb) :
    emb.Nodup :=
  List.Nodup.of_map Prod.fst hG.1

theorem map_sum_eq_single {α : Type} (l : List α) (hnd : l.Nodup)
    (f : α → ℚ) (a : α) (ha : a ∈ l)
    (hz : ∀ b ∈ l, b ≠ a → f b = 0) : (l.map f).sum = f a := by
  induction l with
  | nil => cases ha
  | cons h rest ih =>
    rw [List.nodup_cons] at hnd
    rw [List.map_cons, List.sum_cons]
    rcases List.mem_cons.mp ha with rfl | ha
    · have hr : (rest.map f).sum = 0 := by
        apply List.sum_eq_zero
        intro x hx
        rcases List.mem_map.mp hx with ⟨b, hb, rfl⟩
        exact hz b (List.mem_cons_of_mem _ hb)
          (fun hba => hnd.1 (hba ▸ hb))
      rw [hr, add_zero]
    · rw [hz h (List.mem_cons_self _ _)
        (fun hha => (hnd.1 (hha ▸ ha))), zero_add]
      exact ih hnd.2 ha
        (fun b hb hba => hz b (List.mem_cons_of_mem _ hb) hba)

theorem map_sum_eq_zero {α : Type} (l : List α) (f : α → ℚ)
    (hz : ∀ b ∈ l, f b = 0) : (l.map f).sum = 0 := by
  apply List.sum_eq_zero
  intro x hx
  rcases List.mem_map.mp hx with ⟨b, hb, rfl⟩
  exact hz b hb

/-- The linear-pass contribution at a node of variable `p`'s chain is
exactly `p`'s share: every other variable's chain misses that node. -/
theorem linContrib_localize {es : EmbeddedStructure}
    (hG : GoodEmb es.embedding) (items : List (Var × ℚ))
    (hnd : (items.map Prod.fst).Nodup) (p : Var × ℚ) (hp : p ∈ items)
    {ch : List Node} (hch : alookup es.embedding p.1 = some ch)
    {n : Node} (hn : n ∈ ch) :
    linContrib es items n = p.2 / (ch.length : ℚ) := by
  induction items with
  | nil => cases hp
  | cons q rest ih =>
    rw [List.map_cons, List.nodup_cons] at hnd
    rw [linContrib, List.map_cons, List.sum_cons]
    rcases List.mem_cons.mp hp with rfl | hp
    · rw [hch]
      dsimp only
      rw [if_pos hn]
      have hr : ((rest.map (fun q =>
          match alookup es.embedding q.1 with
          | some ch => if n ∈ ch then q.2 / (ch.length : ℚ) else 0
          | none => 0))).sum = 0 := by
        apply List.sum_eq_zero
        intro x hx
        rcases List.mem_map.mp hx with ⟨b, hb, rfl⟩
        have hbp : b.1 ≠ p.1 := fun h =>
          hnd.1 (h ▸ List.mem_map.mpr ⟨b, hb, rfl⟩)
        rcases hlk : alookup es.embedding b.1 with _ | cb
        · rfl
        · have hcb : (b.1, cb) ∈ es.embedding := alookup_eq_some_mem hlk
          have hcp : (p.1, ch) ∈ es.embedding := alookup_eq_some_mem hch
          have hnin : n ∉ cb := fun hnb =>
            hbp (mem_unique_chain hG hcb hcp hnb hn)
          simp [hnin]
      rw [hr, add_zero]
    · have hq : (match alookup es.embedding q.1 with
          | some ch => if n ∈ ch then q.2 / (ch.length : ℚ) else 0
          | none => 0) = 0 := by
        have hqp : q.1 ≠ p.1 := fun h =>
          hnd.1 (h ▸ List.mem_map.mpr ⟨p, hp, rfl⟩)
        rcases hlk : alookup es.embedding q.1 with _ | cq
        · rfl
        · have hcq : (q.1, cq) ∈ es.embedding := alookup_eq_some_mem hlk
          have hcp : (p.1, ch) ∈ es.embedding := alookup_eq_some_mem hch
          have hnin : n ∉ cq := fun hnq =>
            hqp (mem_unique_chain hG hcq hcp hnq hn)
          simp [hnin]
      rw [hq, zero_add]
      exact ih hnd.2 hp

theorem isEmpty_false_of_mem {α : Type} {l : List α} {a : α} (h : a ∈ l) :
    l.isEmpty = false := by
  cases l
  · cases h
  · rfl

theorem pair_swap_ne {a b : Var × Var} (h : a ≠ (b.2, b.1)) :
    b ≠ (a.2, a.1) := fun hb => h (by rw [hb])

/-- No intra-chain edge of any chain realizes a pair that joins two
different chains. -/
theorem pairCount_chain_cross_zero {emb edges : List _}
    {es : EmbeddedStructure} (hG : GoodEmb emb)
    (hok : EmbeddedStructure.ofEdges edges emb = .ok es)
    {u v w : Var} {cu cv cw : List Node}
    (hu : (u, cu) ∈ emb) (hv : (v, cv) ∈ emb) (hw : (w, cw) ∈ emb)
    (huv : u ≠ v) {x y : Node} (hx : x ∈ cu) (hy : y ∈ cv) :
    pairCount (chainEdgeIter es w) x y = 0 := by
  apply pairCount_eq_zero
  intro a ha hcond
  have hmem := chainEdgeIter_subset hG hok hw a ha
  rcases hcond with ⟨h1, h2⟩ | ⟨h1, h2⟩
  · have huw : u = w := mem_unique_chain hG hu hw hx (h1 ▸ hmem.1)
    have hvw : v = w := mem_unique_chain hG hv hw hy (h2 ▸ hmem.2)
    exact huv (huw.trans hvw.symm)
  · have huw : u = w := mem_unique_chain hG hu hw hx (h1 ▸ hmem.2)
    have hvw : v = w := mem_unique_chain hG hv hw hy (h2 ▸ hmem.1)
    exact huv (huw.trans hvw.symm)

/-- An interaction list for a different unordered variable pair never
realizes a pair joining `u`'s and `v`'s chains. -/
theorem pairCount_inter_other_zero {emb edges : List _}
    {es : EmbeddedStructure} (hG : GoodEmb emb)
    (hok : EmbeddedStructure.ofEdges edges emb = .ok es)
    {u v u2 v2 : Var} {cu cv cu2 cv2 : List Node}
    (hu : (u, cu) ∈ emb) (hv : (v, cv) ∈ emb)
    (hu2 : (u2, cu2) ∈ emb) (hv2 : (v2, cv2) ∈ emb)
    (huv2 : u2 ≠ v2)
    (hne1 : (u, v) ≠ (u2, v2)) (hne2 : (u, v) ≠ (v2, u2))
    {x y : Node} (hx : x ∈ cu) (hy : y ∈ cv) :
    pairCount (interactionEdgeIter es u2 v2) x y = 0 := by
  rw [(interaction_edges_char hG hok hu2 hv2 huv2).2]
  apply pairCount_eq_zero
  intro a ha hcond
  have hcu2 : alookup emb u2 = some cu2 := alookup_of_mem_nodup hG.1 hu2
  have hcv2 : alookup emb v2 = some cv2 := alookup_of_mem_nodup hG.1 hv2
  have hmem := mem_connEdges ha
  rw [hcu2, hcv2] at hmem
  simp only [Option.getD_some] at hmem
  rcases hcond with ⟨h1, h2⟩ | ⟨h1, h2⟩
  · have huw : u = u2 := mem_unique_chain hG hu hu2 hx (h1 ▸ hmem.1)
    have hvw : v = v2 := mem_unique_chain hG hv hv2 hy (h2 ▸ hmem.2)
    exact hne1 (Prod.ext_iff.mpr ⟨huw, hvw⟩)
  · have huw : u = v2 := mem_unique_chain hG hu hv2 hx (h1 ▸ hmem.2)
    have hvw : v = u2 := mem_unique_chain hG hv hu2 hy (h2 ▸ hmem.1)
    exact hne2 (Prod.ext_iff.mpr ⟨huw, hvw⟩)

/-- The quadratic-pass contribution at an inter-chain edge of term `p` is
exactly `p`'s equal share: every other term's interaction edges miss that
pair. -/
theorem quadContrib_localize {emb edges : List _} {es : EmbeddedStructure}
    (hG : GoodEmb emb) (hGE : GoodEdges edges)
    (hok : EmbeddedStructure.ofEdges edges emb = .ok es)
    (items : List ((Var × Var) × ℚ))
    (hpw : List.Pairwise (fun a b => a.1 ≠ b.1 ∧ a.1 ≠ (b.1.2, b.1.1))
      items)
    (hself : ∀ q ∈ items, q.1.1 ≠ q.1.2)
    (hch : ∀ q ∈ items, (alookup emb q.1.1).isSome ∧
      (alookup emb q.1.2).isSome)
    (p : (Var × Var) × ℚ) (hp : p ∈ items) (e : Node × Node)
    (he : e ∈ interactionEdgeIter es p.1.1 p.1.2) :
    quadContrib es items e.1 e.2 =
      p.2 / ((interactionEdgeIter es p.1.1 p.1.2).length : ℚ) := by
  rcases Option.isSome_iff_exists.mp (hch p hp).1 with ⟨cu, hcu⟩
  rcases Option.isSome_iff_exists.mp (hch p hp).2 with ⟨cv, hcv⟩
  have hum : (p.1.1, cu) ∈ emb := alookup_eq_some_mem hcu
  have hvm : (p.1.2, cv) ∈ emb := alookup_eq_some_mem hcv
  have hchar := (interaction_edges_char hG hok hum hvm (hself p hp)).2
  have hx : e.1 ∈ cu ∧ e.2 ∈ cv := by
    rw [hchar] at he
    have := mem_connEdges he
    rw [hcu, hcv] at this
    simpa using this
  induction items with
  | nil => cases hp
  | cons q rest ih =>
    rw [quadContrib, List.map_cons, List.sum_cons]
    rcases List.mem_cons.mp hp with rfl | hp'
    · rw [isEmpty_false_of_mem he]
      have hone : pairCount (interactionEdgeIter es p.1.1 p.1.2) e.1 e.2
          = 1 := by
        rw [hchar] at he ⊢
        exact pairCount_eq_one _ e (connEdges_pairwise hGE emb _ _) he
      rw [hone]
      have hr : ((rest.map (fun q =>
          if (interactionEdgeIter es q.1.1 q.1.2).isEmpty then 0
          else (q.2 / ((interactionEdgeIter es q.1.1 q.1.2).length : ℚ)) *
            (pairCount (interactionEdgeIter es q.1.1 q.1.2)
              e.1 e.2 : ℚ)))).sum = 0 := by
        apply List.sum_eq_zero
        intro z hz
        rcases List.mem_map.mp hz with ⟨b, hb, rfl⟩
        by_cases hbe : (interactionEdgeIter es b.1.1 b.1.2).isEmpty
        · rw [if_pos hbe]
        · rw [if_neg hbe]
          have hrel := (List.pairwise_cons.mp hpw).1 b hb
          rcases Option.isSome_iff_exists.mp
            (hch b (List.mem_cons_of_mem _ hb)).1 with ⟨cb1, hcb1⟩
          rcases Option.isSome_iff_exists.mp
            (hch b (List.mem_cons_of_mem _ hb)).2 with ⟨cb2, hcb2⟩
          have hz0 := pairCount_inter_other_zero hG hok hum hvm
            (alookup_eq_some_mem hcb1) (alookup_eq_some_mem hcb2)
            (hself b (List.mem_cons_of_mem _ hb)) hrel.1 hrel.2 hx.1 hx.2
          rw [hz0]
          simp
      rw [hr, add_zero, Nat.cast_one, mul_one]
      simp
    · have hq : (if (interactionEdgeIter es q.1.1 q.1.2).isEmpty then 0
          else (q.2 / ((interactionEdgeIter es q.1.1 q.1.2).length : ℚ)) *
            (pairCount (interactionEdgeIter es q.1.1 q.1.2)
              e.1 e.2 : ℚ)) = 0 := by
        by_cases hbe : (interactionEdgeIter es q.1.1 q.1.2).isEmpty
        · rw [if_pos hbe]
        · rw [if_neg hbe]
          have hrel := (List.pairwise_cons.mp hpw).1 p hp'
          rcases Option.isSome_iff_exists.mp
            (hch q (List.mem_cons_self _ _)).1 with ⟨cq1, hcq1⟩
          rcases Option.isSome_iff_exists.mp
            (hch q (List.mem_cons_self _ _)).2 with ⟨cq2, hcq2⟩
          have hz0 := pairCount_inter_other_zero hG hok hum hvm
            (alookup_eq_some_mem hcq1) (alookup_eq_some_mem hcq2)
            (hself q (List.mem_cons_self _ _))
            (fun h => hrel.1 h.symm) (pair_swap_ne hrel.2) hx.1 hx.2
          rw [hz0]
          simp
      rw [hq, zero_add]
      rw [quadContrib] at ih
      exact ih (List.pairwise_cons.mp hpw).2
        (fun b hb => hself b (List.mem_cons_of_mem _ hb))
        (fun b hb => hch b (List.mem_cons_of_mem _ hb)) hp'

/-! ## The claims -/

/-- C10: if any source variable's chain in the embedding is empty,
constructing an `EmbeddedStructure` — and therefore any `embed_bqm` call
that builds one from a raw mapping — fails with a `MissingChainError`
naming that variable, before any target edges are scanned (the result does
not depend on the target edges at all). -/
theorem claim_C10 (emb : List (Var × List Node)) (u : Var)
    (h : (u, ([] : List Node)) ∈ emb) :
    ∃ w, (w, ([] : List Node)) ∈ emb ∧
      (∀ edges, EmbeddedStructure.ofEdges edges emb =
        .error (.missingChain w)) ∧
      (∀ edges src cs, embed_bqm_mapping src edges emb cs =
        .error (.missingChain w)) := by
  rcases hcase : firstEmpty emb with _ | w
  · exact absurd rfl (firstEmpty_eq_none_iff.mp hcase (u, []) h)
  · have hofe : ∀ edges, EmbeddedStructure.ofEdges edges emb =
        .error (.missingChain w) := by
      intro edges
      rw [EmbeddedStructure.ofEdges, hcase]
    refine ⟨w, firstEmpty_some_mem hcase, hofe, ?_⟩
    intro edges src cs
    unfold embed_bqm_mapping
    rw [hofe edges, except_bind_error]

/-- C10 witness: an embedding whose first entry has an empty chain. -/
theorem claim_C10_witness :
    ∃ w, (w, ([] : List Node)) ∈ [(5, ([] : List Node)), (6, [0])] ∧
      (∀ edges, EmbeddedStructure.ofEdges edges [(5, []), (6, [0])] =
        .error (.missingChain w)) ∧
      (∀ edges src cs,
        embed_bqm_mapping src edges [(5, []), (6, [0])] cs =
          .error (.missingChain w)) :=
  claim_C10 [(5, []), (6, [0])] 5 (by decide)

/-- C9: after construction, for every ordered pair of distinct source
variables `(u, v)`, the interaction lists keyed by `(u, v)` and `(v, u)`
have equal length, and zipping them position-by-position (which is what
`interaction_edge_iter` does) yields exactly the target edges connecting
`u`'s chain to `v`'s chain, each oriented `u`-side first regardless of the
direction in which the edge was listed. -/
theorem claim_C9 {emb edges : List _} {es : EmbeddedStructure} {u v : Var}
    {cu cv : List Node} (hG : GoodEmb emb)
    (hok : EmbeddedStructure.ofEdges edges emb = .ok es)
    (hu : (u, cu) ∈ emb) (hv : (v, cv) ∈ emb) (huv : u ≠ v) :
    (interList es u v).length = (interList es v u).length ∧
    interactionEdgeIter es u v = connEdges emb u v edges :=
  interaction_edges_char hG hok hu hv huv

/-- C9 witness: the docstring example, pair `(a, c) = (10, 12)`. -/
theorem claim_C9_witness :
    (interList wEs 10 12).length = (interList wEs 12 10).length ∧
    interactionEdgeIter wEs 10 12 = connEdges wEmb 10 12 wEdges :=
  @claim_C9 wEmb wEdges wEs 10 12 [0] [2, 3] (by decide) rfl (by decide)
    (by decide) (by decide)

/-- C7: in single-policy unembedding, every retained row's energy in the
output batch is recomputed from the resolved source-domain values against
the source model (never copied from the target batch), and every per-row
field other than the samples and energies is re-aligned by selecting the
retained row indices, in their returned order. -/
theorem claim_C7 (ts : SampleSet) (emb : List (Var × List Node))
    (bqm : SrcBQM) (cbm : ChainBreakMethod) (rows : List (List ℚ))
    (idxs : List Nat)
    (hch : ∀ v ∈ bqm.linear.map Prod.fst, (alookup emb v).isSome)
    (hcbm : cbm ts (chainsOf emb bqm) = .ok (rows, idxs)) :
    ∃ out, unembedSingle ts emb bqm cbm = .ok out ∧
      out.samples = rows ∧
      out.energies = rows.map
        (fun r => energy bqm (assignOf (bqm.linear.map Prod.fst) r)) ∧
      out.vectors = ts.vectors.map
        (fun p => (p.1, idxs.map (fun i => p.2.getD i 0))) :=
  ⟨_, unembedSingle_ok ts emb bqm cbm rows idxs hch hcbm, rfl, rfl, rfl⟩

/-- C7 witness: the docstring example with a policy that flips the broken
chain, so the recomputed energy differs from the carried-over one. -/
theorem claim_C7_witness :
    ∃ out, unembedSingle
        { vars := [0, 1, 2, 3],
          samples := [[-1, -1, -1, -1], [-1, 1, 1, 1]],
          energies := [-3, 1],
          vectors := [("num_occurrences", [1, 1])] }
        wEmb
        { linear := [(10, 0), (11, 0), (12, 0)],
          quadratic := [((10, 11), -1), ((11, 12), -1), ((10, 12), -1)],
          offset := 0, vartype := .SPIN }
        (fun _ _ => .ok ([[-1, -1, -1], [1, 1, 1]], [0, 1])) = .ok out ∧
      out.samples = [[-1, -1, -1], [1, 1, 1]] ∧
      out.energies = [[-1, -1, -1], [1, 1, 1]].map
        (fun r => energy
          { linear := [(10, 0), (11, 0), (12, 0)],
            quadratic := [((10, 11), -1), ((11, 12), -1), ((10, 12), -1)],
            offset := 0, vartype := .SPIN }
          (assignOf [10, 11, 12] r)) ∧
      out.vectors = [("num_occurrences",
        [(1 : ℚ), 1].getD 0 0 :: [[(1 : ℚ), 1].getD 1 0])] :=
  claim_C7 _ wEmb _ _ [[-1, -1, -1], [1, 1, 1]] [0, 1] (by decide) rfl

/-- C8: if the resolution policy retains zero rows, unembedding does not
fail: it returns an empty batch with the same field names a non-empty
result would have had (each field's column simply empty). -/
theorem claim_C8 (ts : SampleSet) (emb : List (Var × List Node))
    (bqm : SrcBQM) (cbm : ChainBreakMethod)
    (hch : ∀ v ∈ bqm.linear.map Prod.fst, (alookup emb v).isSome)
    (hcbm : cbm ts (chainsOf emb bqm) = .ok ([], [])) :
    ∃ out, unembedSingle ts emb bqm cbm = .ok out ∧
      out.samples = [] ∧ out.energies = [] ∧
      out.vectors.map Prod.fst = ts.vectors.map Prod.fst ∧
      ∀ p ∈ out.vectors, p.2 = ([] : List ℚ) := by
  refine ⟨_, unembedSingle_ok ts emb bqm cbm [] [] hch hcbm, rfl, rfl,
    ?_, ?_⟩
  · rw [fromSamplesBqm]
    rw [List.map_map]
    rfl
  · intro p hp
    rw [fromSamplesBqm] at hp
    rcases List.mem_map.mp hp with ⟨q, hq, rfl⟩
    rfl

/-- C8 witness: a policy retaining zero rows on the docstring example. -/
theorem claim_C8_witness :
    ∃ out, unembedSingle
        { vars := [0, 1, 2, 3],
          samples := [[-1, -1, -1, -1], [-1, 1, 1, 1]],
          energies := [-3, 1],
          vectors := [("num_occurrences", [1, 1])] }
        wEmb
        { linear := [(10, 0), (11, 0), (12, 0)],
          quadratic := [((10, 11), -1), ((11, 12), -1), ((10, 12), -1)],
          offset := 0, vartype := .SPIN }
        (fun _ _ => .ok ([], [])) = .ok out ∧
      out.samples = [] ∧ out.energies = [] ∧
      out.vectors.map Prod.fst =
        [("num_occurrences", [(1 : ℚ), 1])].map Prod.fst ∧
      ∀ p ∈ out.vectors, p.2 = ([] : List ℚ) :=
  claim_C8 _ wEmb _ _ (by decide) rfl

/-- C6: with a sequence of resolution policies, the whole unembedding
procedure runs independently per policy; the resulting batches are
concatenated in policy order, so the total row count is the sum of the
per-policy row counts; a per-row `chain_break_method` field is appended
whose value on each row is the index of the policy that produced it; and
any error raised by a sub-run propagates unchanged. -/
theorem claim_C6 (ts : SampleSet) (emb : List (Var × List Node))
    (bqm : SrcBQM) (cbms : List ChainBreakMethod) :
    (∀ l, runPolicies ts emb bqm cbms = .ok l →
      List.Forall₂ (fun c s => unembedSingle ts emb bqm c = .ok s)
        cbms l ∧
      unembedMulti ts emb bqm cbms = .ok
        (appendField (concatenateSS l) "chain_break_method" (cbmIdxs l)) ∧
      (appendField (concatenateSS l) "chain_break_method"
        (cbmIdxs l)).samples.length =
        (l.map (fun s => s.samples.length)).sum ∧
      cbmIdxs l = (l.enum.map
        (fun p => List.replicate p.2.samples.length
          ((p.1 : Nat) : ℚ))).flatten) ∧
    (∀ pre cbm post e, cbms = pre ++ cbm :: post →
      (∀ c ∈ pre, ∃ s, unembedSingle ts emb bqm c = .ok s) →
      unembedSingle ts emb bqm cbm = .error e →
      unembedMulti ts emb bqm cbms = .error e) := by
  constructor
  · intro l hl
    refine ⟨runPolicies_ok_forall ts emb bqm cbms l hl,
      unembedMulti_ok ts emb bqm cbms l hl, ?_, rfl⟩
    show (concatenateSS l).samples.length = _
    cases l with
    | nil => rfl
    | cons h t =>
      rw [(concatenateSS_cons h t).1, List.length_flatten, List.map_map]
      rfl
  · rintro pre cbm post e rfl hpre he
    exact unembedMulti_error ts emb bqm pre cbm post e hpre he

/-- C6 witness: a two-policy run and a failing sub-run. -/
theorem claim_C6_witness :
    (List.Forall₂ (fun c s => unembedSingle wTs wEmb wBqm c = .ok s)
        [wCbm1, wCbm2] wRP ∧
      unembedMulti wTs wEmb wBqm [wCbm1, wCbm2] = .ok
        (appendField (concatenateSS wRP) "chain_break_method"
          (cbmIdxs wRP)) ∧
      (appendField (concatenateSS wRP) "chain_break_method"
        (cbmIdxs wRP)).samples.length =
        (wRP.map (fun s => s.samples.length)).sum ∧
      cbmIdxs wRP = (wRP.enum.map
        (fun p => List.replicate p.2.samples.length
          ((p.1 : Nat) : ℚ))).flatten) ∧
    unembedMulti wTs wEmb wBqm ([wCbm1] ++ wCbmBad :: []) =
      .error (.policy "boom") :=
  ⟨(claim_C6 wTs wEmb wBqm [wCbm1, wCbm2]).1 wRP rfl,
    (claim_C6 wTs wEmb wBqm ([wCbm1] ++ wCbmBad :: [])).2
      [wCbm1] wCbmBad [] (.policy "boom") rfl
      (fun c hc => by
        rw [List.mem_singleton] at hc
        subst hc
        exact ⟨_, rfl⟩)
      rfl⟩

/-- C4: in the linear pass, a source variable without a chain makes
`embed_bqm` fail with a `MissingChainError`; otherwise each source bias is
divided by the chain length and that fraction becomes the linear
coefficient of every node of the chain. -/
theorem claim_C4 (src : SrcBQM) (es : EmbeddedStructure)
    (hG : GoodEmb es.embedding) (hnd : (src.linear.map Prod.fst).Nodup) :
    ((∃ p ∈ src.linear, alookup es.embedding p.1 = none) →
      ∃ w, alookup es.embedding w = none ∧
        ∀ cs, embed_bqm src es cs = .error (.missingChain w)) ∧
    ((∀ p ∈ src.linear, (alookup es.embedding p.1).isSome) →
      ∃ m1, linearPass src es (initTarget src) = .ok m1 ∧
        ∀ p ∈ src.linear, ∀ ch, alookup es.embedding p.1 = some ch →
          ∀ n ∈ ch, m1.lin n = p.2 / (ch.length : ℚ)) := by
  constructor
  · intro h
    rcases linSteps_error es src.linear (initTarget src) h with
      ⟨w, hw, herr⟩
    refine ⟨w, hw, fun cs => embed_bqm_error_of_lin ?_⟩
    rw [linearPass]
    exact herr
  · intro h
    rcases linSteps_ok_char es src.linear (initTarget src) h with
      ⟨t, hok, hlin, -, -, -⟩
    refine ⟨t, by rw [linearPass]; exact hok, ?_⟩
    intro p hp ch hch n hn
    rw [hlin n]
    have hz : (initTarget src).lin n = 0 := rfl
    rw [hz, linContrib_localize hG src.linear hnd p hp hch hn, zero_add]

/-- C4 witness: a missing chain aborts; otherwise bias 6 on the two-node
chain becomes 3 on each node. -/
theorem claim_C4_witness :
    (∃ w, alookup wEs.embedding w = none ∧
      ∀ cs, embed_bqm wSrcMissing wEs cs = .error (.missingChain w)) ∧
    (∃ m1, linearPass wSrcLin wEs (initTarget wSrcLin) = .ok m1 ∧
      ∀ p ∈ wSrcLin.linear, ∀ ch, alookup wEs.embedding p.1 = some ch →
        ∀ n ∈ ch, m1.lin n = p.2 / (ch.length : ℚ)) :=
  ⟨(claim_C4 wSrcMissing wEs (by decide) (by decide)).1 (by decide),
    (claim_C4 wSrcLin wEs (by decide) (by decide)).2 (by decide)⟩

/-- C3: building an `EmbeddedStructure` raises `DisconnectedChainError` iff
some source variable's chain has more than one node and its intra-chain
target edges (as position pairs, in scan order) fail to join all chain
positions into a single union-find component; otherwise (given no chain is
empty) construction succeeds. -/
theorem claim_C3 (emb : List (Var × List Node)) (edges : List (Node × Node))
    (hG : GoodEmb emb) (hne : ∀ p ∈ emb, p.2 ≠ []) :
    ((∃ w, EmbeddedStructure.ofEdges edges emb =
        .error (.disconnectedChain w)) ↔
      ∃ p ∈ emb, 1 < p.2.length ∧
        ¬ chainConn p.2.length (intraPairs (buildLabels emb) edges p.1)) ∧
    ((∃ es, EmbeddedStructure.ofEdges edges emb = .ok es) ↔
      ¬ ∃ p ∈ emb, 1 < p.2.length ∧
        ¬ chainConn p.2.length (intraPairs (buildLabels emb) edges p.1)) := by
  have hfe : firstEmpty emb = none := firstEmpty_eq_none_iff.mpr hne
  have hcond : ∀ p ∈ emb,
      (p.2.length = ufSize0 ((alookup
        ((edges.foldl (scanEdge (buildLabels emb)) (initState emb)).ufs)
        p.1).getD []) ↔
      chainConn p.2.length (intraPairs (buildLabels emb) edges p.1)) := by
    intro p hp
    have hlk : alookup emb p.1 = some p.2 := alookup_of_mem_nodup hG.1 hp
    rw [scan_final_uf, hlk]
    show p.2.length = ufSize0 (applyUnions
      (intraPairs (buildLabels emb) edges p.1) (ufInit p.2.length)) ↔ _
    rw [chainConn]
    exact eq_comm
  have hEquiv : (∃ p ∈ emb, ¬ p.2.length = ufSize0 ((alookup
        ((edges.foldl (scanEdge (buildLabels emb)) (initState emb)).ufs)
        p.1).getD [])) ↔
      ∃ p ∈ emb, 1 < p.2.length ∧
        ¬ chainConn p.2.length (intraPairs (buildLabels emb) edges p.1) := by
    constructor
    · rintro ⟨p, hp, hchk⟩
      have hnc : ¬ chainConn p.2.length
          (intraPairs (buildLabels emb) edges p.1) :=
        fun hc => hchk ((hcond p hp).mpr hc)
      refine ⟨p, hp, ?_, hnc⟩
      by_contra hlen
      have hle : p.2.length ≤ 1 := Nat.not_lt.mp hlen
      rcases Nat.le_one_iff_eq_zero_or_eq_one.mp hle with h0 | h1
      · exact hnc (by rw [h0]; exact chainConn_zero _)
      · exact hnc (by rw [h1]; exact chainConn_one _)
    · rintro ⟨p, hp, -, hnc⟩
      exact ⟨p, hp, fun hchk => hnc ((hcond p hp).mp hchk)⟩
  rcases hfd : firstDisconnected emb
      ((edges.foldl (scanEdge (buildLabels emb)) (initState emb)).ufs)
    with _ | w
  · have hres : EmbeddedStructure.ofEdges edges emb = .ok
        { embedding := emb,
          chainEdges := (edges.foldl (scanEdge (buildLabels emb))
            (initState emb)).chainEdges,
          interEdges := (edges.foldl (scanEdge (buildLabels emb))
            (initState emb)).interEdges } := by
      rw [EmbeddedStructure.ofEdges, hfe, hfd]
    have hall := firstDisconnected_eq_none_iff.mp hfd
    constructor
    · constructor
      · rintro ⟨w, hw⟩
        rw [hres] at hw
        exact Except.noConfusion hw
      · intro hex
        exfalso
        rcases hEquiv.mpr hex with ⟨p, hp, hchk⟩
        exact hchk (hall p hp)
    · constructor
      · intro _ hex
        rcases hEquiv.mpr hex with ⟨p, hp, hchk⟩
        exact hchk (hall p hp)
      · intro _
        exact ⟨_, hres⟩
  · have hres : EmbeddedStructure.ofEdges edges emb =
        .error (.disconnectedChain w) := by
      rw [EmbeddedStructure.ofEdges, hfe, hfd]
    rcases firstDisconnected_some_mem hfd with ⟨cw, hcw, hchk⟩
    constructor
    · constructor
      · intro _
        exact hEquiv.mp ⟨(w, cw), hcw, hchk⟩
      · intro _
        exact ⟨w, hres⟩
    · constructor
      · rintro ⟨es, hes⟩
        rw [hres] at hes
        exact Except.noConfusion hes
      · intro hnex
        exact absurd (hEquiv.mp ⟨(w, cw), hcw, hchk⟩) hnex

/-- C3 witness: a 3-node chain with only two of its nodes connected fails;
the docstring example succeeds. -/
theorem claim_C3_witness :
    (((∃ w, EmbeddedStructure.ofEdges [(0, 1)] [(5, [0, 1, 2])] =
        .error (.disconnectedChain w)) ↔
      ∃ p ∈ [(5, [0, 1, 2])], 1 < p.2.length ∧
        ¬ chainConn p.2.length
          (intraPairs (buildLabels [(5, [0, 1, 2])]) [(0, 1)] p.1)) ∧
    ((∃ es, EmbeddedStructure.ofEdges [(0, 1)] [(5, [0, 1, 2])] = .ok es) ↔
      ¬ ∃ p ∈ [(5, [0, 1, 2])], 1 < p.2.length ∧
        ¬ chainConn p.2.length
          (intraPairs (buildLabels [(5, [0, 1, 2])]) [(0, 1)] p.1))) ∧
    ((∃ w, EmbeddedStructure.ofEdges wEdges wEmb =
        .error (.disconnectedChain w)) ↔
      ∃ p ∈ wEmb, 1 < p.2.length ∧
        ¬ chainConn p.2.length (intraPairs (buildLabels wEmb) wEdges p.1)) ∧
    ((∃ es, EmbeddedStructure.ofEdges wEdges wEmb = .ok es) ↔
      ¬ ∃ p ∈ wEmb, 1 < p.2.length ∧
        ¬ chainConn p.2.length
          (intraPairs (buildLabels wEmb) wEdges p.1)) :=
  ⟨claim_C3 [(5, [0, 1, 2])] [(0, 1)] (by decide) (by decide),
    claim_C3 wEmb wEdges (by decide) (by decide)⟩

theorem isEmpty_true_iff {α : Type} (l : List α) :
    l.isEmpty = true ↔ l = [] := by
  cases l <;> simp

/-- C2: `embed_bqm` raises `MissingEdgeError` iff some quadratic term's two
chains are joined by no target edge; when every term has at least one
connecting edge, embedding succeeds and each term's bias, divided equally
over its inter-chain edges, is the resulting quadratic coefficient on each
of those edges. -/
theorem claim_C2 (src : SrcBQM) (emb : List (Var × List Node))
    (edges : List (Node × Node)) (es : EmbeddedStructure) (cs : ℚ)
    (hG : GoodEmb emb) (hGE : GoodEdges edges)
    (hok : EmbeddedStructure.ofEdges edges emb = .ok es)
    (hsrc : SrcOk src)
    (hch : ∀ p ∈ src.linear, (alookup emb p.1).isSome) :
    ((∃ u v, embed_bqm src es cs = .error (.missingEdge u v)) ↔
      ∃ p ∈ src.quadratic, connEdges emb p.1.1 p.1.2 edges = []) ∧
    ((∀ p ∈ src.quadratic, connEdges emb p.1.1 p.1.2 edges ≠ []) →
      ∃ t, embed_bqm src es cs = .ok t ∧
        ∀ p ∈ src.quadratic, ∀ e ∈ interactionEdgeIter es p.1.1 p.1.2,
          t.quad e.1 e.2 =
            p.2 / ((interactionEdgeIter es p.1.1 p.1.2).length : ℚ)) := by
  have hemb : es.embedding = emb := (ofEdges_ok_elim hok).1
  have hch' : ∀ p ∈ src.linear, (alookup es.embedding p.1).isSome := by
    rw [hemb]; exact hch
  have hqch : ∀ q ∈ src.quadratic,
      (alookup emb q.1.1).isSome ∧ (alookup emb q.1.2).isSome := by
    intro q hq
    rcases hsrc.2.2.2 q hq with ⟨h1, h2⟩
    rcases List.mem_map.mp h1 with ⟨p1, hp1, he1⟩
    rcases List.mem_map.mp h2 with ⟨p2, hp2, he2⟩
    exact ⟨he1 ▸ hch p1 hp1, he2 ▸ hch p2 hp2⟩
  have hiff : ∀ q ∈ src.quadratic, interactionEdgeIter es q.1.1 q.1.2 =
      connEdges emb q.1.1 q.1.2 edges := by
    intro q hq
    rcases Option.isSome_iff_exists.mp (hqch q hq).1 with ⟨c1, hc1⟩
    rcases Option.isSome_iff_exists.mp (hqch q hq).2 with ⟨c2, hc2⟩
    exact (interaction_edges_char hG hok (alookup_eq_some_mem hc1)
      (alookup_eq_some_mem hc2) (hsrc.2.2.1 q hq)).2
  constructor
  · constructor
    · rintro ⟨u, v, herr⟩
      rcases embed_bqm_error_elim herr with hlerr | ⟨m1, hm1, hqerr⟩
      · rw [linearPass] at hlerr
        rcases linSteps_error_inv es src.linear (initTarget src) _ hlerr
          with ⟨p, hp, hpe, -⟩
        exact Err.noConfusion hpe
      · rw [quadraticPass] at hqerr
        rcases quadSteps_error_inv es src.quadratic m1 _ hqerr with
          ⟨q, hq, -, hempty⟩
        refine ⟨q, hq, ?_⟩
        rw [← hiff q hq]
        exact (isEmpty_true_iff _).mp hempty
    · rintro ⟨q, hq, hconn⟩
      rcases linSteps_ok_char es src.linear (initTarget src) hch' with
        ⟨m1, hok1, -, -, -, -⟩
      have hex : ∃ p ∈ src.quadratic,
          (interactionEdgeIter es p.1.1 p.1.2).isEmpty = true := by
        refine ⟨q, hq, ?_⟩
        rw [isEmpty_true_iff, hiff q hq]
        exact hconn
      rcases quadSteps_error es src.quadratic m1 hex with
        ⟨q', hq', -, herr⟩
      refine ⟨q'.1.1, q'.1.2, ?_⟩
      exact embed_bqm_error_of_quad (by rw [linearPass]; exact hok1)
        (by rw [quadraticPass]; exact herr)
  · intro hall
    have hallE : ∀ p ∈ src.quadratic,
        (interactionEdgeIter es p.1.1 p.1.2).isEmpty = false := by
      intro p hp
      rw [Bool.eq_false_iff]
      intro htrue
      exact hall p hp (by rw [← hiff p hp]
                          exact (isEmpty_true_iff _).mp htrue)
    rcases linSteps_ok_char es src.linear (initTarget src) hch' with
      ⟨m1, hok1, -, hq1, hoff1, hvt1⟩
    rcases quadSteps_ok_char es src.quadratic m1 hallE with
      ⟨m2, hok2, hq2, -, -, hvt2⟩
    refine ⟨chainPenaltyPass es cs m2,
      embed_bqm_of_passes (by rw [linearPass]; exact hok1)
        (by rw [quadraticPass]; exact hok2), ?_⟩
    intro p hp e he
    rcases Option.isSome_iff_exists.mp (hqch p hp).1 with ⟨cu, hcu⟩
    rcases Option.isSome_iff_exists.mp (hqch p hp).2 with ⟨cv, hcv⟩
    have hum : (p.1.1, cu) ∈ emb := alookup_eq_some_mem hcu
    have hvm : (p.1.2, cv) ∈ emb := alookup_eq_some_mem hcv
    have hxy : e.1 ∈ cu ∧ e.2 ∈ cv := by
      have he' := he
      rw [hiff p hp] at he'
      have := mem_connEdges he'
      rw [hcu, hcv] at this
      simpa using this
    have hzero : ((es.embedding.filter
        (fun p : Var × List Node => ¬ p.2.length = 1)).map
        (fun p' => (pairCount (chainEdgeIter es p'.1) e.1 e.2 : ℚ))).sum
        = 0 := by
      apply map_sum_eq_zero
      intro b hb
      have hbm : b ∈ es.embedding := List.mem_of_mem_filter hb
      rw [hemb] at hbm
      have hz := pairCount_chain_cross_zero hG hok hum hvm hbm
        (hsrc.2.2.1 p hp) hxy.1 hxy.2
      rw [hz]
      exact Nat.cast_zero
    have hquadval : m2.quad e.1 e.2 =
        p.2 / ((interactionEdgeIter es p.1.1 p.1.2).length : ℚ) := by
      rw [hq2 e.1 e.2, hq1 e.1 e.2]
      have hz : (initTarget src).quad e.1 e.2 = 0 := rfl
      rw [hz, zero_add]
      exact quadContrib_localize hG hGE hok src.quadratic hsrc.2.1
        (fun b hb => hsrc.2.2.1 b hb)
        (fun b hb => hqch b hb) p hp e he
    have hpen := penaltySteps_char es cs es.embedding m2
    rw [chainPenaltyPass]
    by_cases hv2 : m2.vartype = Vartype.SPIN
    · rcases hpen.2.1 hv2 with ⟨-, -, hqd⟩
      rw [hqd e.1 e.2, hzero, mul_zero, sub_zero, hquadval]
    · have hvb : m2.vartype = Vartype.BINARY := by
        cases hvv : m2.vartype
        · exact absurd hvv hv2
        · rfl
      rcases hpen.2.2 hvb with ⟨-, -, hqd⟩
      rw [hqd e.1 e.2, hzero, mul_zero, sub_zero, hquadval]

/-- C2 witness: the docstring example succeeds with shared biases; cutting
the only edge between two chains raises the missing-edge error. -/
theorem claim_C2_witness :
    (((∃ u v, embed_bqm wSrcQuad wEs 1 = .error (.missingEdge u v)) ↔
      ∃ p ∈ wSrcQuad.quadratic, connEdges wEmb p.1.1 p.1.2 wEdges = []) ∧
    ((∀ p ∈ wSrcQuad.quadratic, connEdges wEmb p.1.1 p.1.2 wEdges ≠ []) →
      ∃ t, embed_bqm wSrcQuad wEs 1 = .ok t ∧
        ∀ p ∈ wSrcQuad.quadratic,
          ∀ e ∈ interactionEdgeIter wEs p.1.1 p.1.2,
          t.quad e.1 e.2 =
            p.2 / ((interactionEdgeIter wEs p.1.1 p.1.2).length : ℚ))) ∧
    ((∃ u v, embed_bqm wBqm wEsCut 1 = .error (.missingEdge u v)) ↔
      ∃ p ∈ wBqm.quadratic, connEdges wEmb p.1.1 p.1.2 wEdgesCut = []) :=
  ⟨claim_C2 wSrcQuad wEmb wEdges wEs 1 (by decide) (by decide) rfl
      (by decide) (by decide),
    (claim_C2 wBqm wEmb wEdgesCut wEsCut 1 (by decide) (by decide) rfl
      (by decide) (by decide)).1⟩

theorem cast_map_sum {α : Type} (l : List α) (f : α → Nat) :
    (((l.map f).sum : Nat) : ℚ) = (l.map (fun x => (f x : ℚ))).sum := by
  induction l with
  | nil => simp
  | cons a t ih =>
    rw [List.map_cons, List.sum_cons, List.map_cons, List.sum_cons, ← ih]
    push_cast
    ring

theorem pairCount_chain_other_zero {emb edges : List _}
    {es : EmbeddedStructure} (hG : GoodEmb emb)
    (hok : EmbeddedStructure.ofEdges edges emb = .ok es)
    {v w : Var} {ch cw : List Node} (hv : (v, ch) ∈ emb)
    (hw : (w, cw) ∈ emb) (hvw : v ≠ w) {x y : Node} (hx : x ∈ ch) :
    pairCount (chainEdgeIter es w) x y = 0 := by
  apply pairCount_eq_zero
  intro a ha hcond
  have hmem := chainEdgeIter_subset hG hok hw a ha
  rcases hcond with ⟨h1, h2⟩ | ⟨h1, h2⟩
  · exact hvw (mem_unique_chain hG hv hw hx (h1 ▸ hmem.1))
  · exact hvw (mem_unique_chain hG hv hw hx (h1 ▸ hmem.2))

/-- C1: for every chain of size > 1 and every intra-chain edge of it, the
chain-penalty phase of `embed_bqm` adds, in the spin domain, a quadratic
coefficient of `-chain_strength` on the edge and `+chain_strength` to the
offset per intra-chain edge while leaving linear terms alone; in the binary
domain it instead adds `-4*chain_strength` on the edge and
`+2*chain_strength` to each endpoint per incident intra-chain edge while
leaving the offset untouched.  `embed_bqm`'s successful output is exactly
`chainPenaltyPass` applied to the model built by the two bias passes. -/
theorem claim_C1 {emb edges : List _} {es : EmbeddedStructure}
    (hG : GoodEmb emb) (hGE : GoodEdges edges)
    (hok : EmbeddedStructure.ofEdges edges emb = .ok es)
    {v : Var} {ch : List Node} (hv : (v, ch) ∈ emb) (hlen : 1 < ch.length)
    {e : Node × Node} (he : e ∈ chainEdgeIter es v) (cs : ℚ) (m : TBQM) :
    (m.vartype = .SPIN →
      (chainPenaltyPass es cs m).quad e.1 e.2 = m.quad e.1 e.2 - cs ∧
      (chainPenaltyPass es cs m).offset =
        m.offset + cs * (totalIntraEdges es : ℚ) ∧
      (∀ n, (chainPenaltyPass es cs m).lin n = m.lin n)) ∧
    (m.vartype = .BINARY →
      (chainPenaltyPass es cs m).quad e.1 e.2 =
        m.quad e.1 e.2 - 4 * cs ∧
      (chainPenaltyPass es cs m).offset = m.offset ∧
      (∀ n, (chainPenaltyPass es cs m).lin n =
        m.lin n + 2 * cs * (intraDegree es n : ℚ)) ∧
      1 ≤ intraDegree es e.1 ∧ 1 ≤ intraDegree es e.2) ∧
    (∀ src t, embed_bqm src es cs = .ok t →
      ∃ m2, t = chainPenaltyPass es cs m2) := by
  have hemb : es.embedding = emb := (ofEdges_ok_elim hok).1
  have hvm : (v, ch) ∈ es.embedding := by rw [hemb]; exact hv
  have hvf : (v, ch) ∈ es.embedding.filter
      (fun p : Var × List Node => ¬ p.2.length = 1) := by
    refine List.mem_filter.mpr ⟨hvm, ?_⟩
    simp only [decide_eq_true_eq]
    omega
  have hnd : (es.embedding.filter
      (fun p : Var × List Node => ¬ p.2.length = 1)).Nodup :=
    List.Nodup.filter _ (by rw [hemb]; exact goodEmb_nodup hG)
  have hone : pairCount (chainEdgeIter es v) e.1 e.2 = 1 :=
    pairCount_eq_one _ e (chainEdgeIter_pairwise hG hGE hok hv) he
  have hS : ((es.embedding.filter
      (fun p : Var × List Node => ¬ p.2.length = 1)).map
      (fun p => (pairCount (chainEdgeIter es p.1) e.1 e.2 : ℚ))).sum
      = 1 := by
    rw [map_sum_eq_single _ hnd _ (v, ch) hvf]
    · rw [hone]; exact Nat.cast_one
    · intro b hb hbv
      have hbm : b ∈ es.embedding := List.mem_of_mem_filter hb
      rw [hemb] at hbm
      have hb1 : b.1 ≠ v := by
        intro h
        exact hbv (entry_eq_of_fst hG hbm h (alookup_of_mem_nodup hG.1 hv))
      have hz : pairCount (chainEdgeIter es b.1) e.1 e.2 = 0 :=
        pairCount_chain_other_zero hG hok hv hbm (fun h => hb1 h.symm)
          (chainEdgeIter_subset hG hok hv e he).1
      rw [hz]
      exact Nat.cast_zero
  have hpen := penaltySteps_char es cs es.embedding m
  refine ⟨?_, ?_, ?_⟩
  · intro hm
    rcases hpen.2.1 hm with ⟨hlin, hoff, hquad⟩
    refine ⟨?_, ?_, hlin⟩
    · rw [chainPenaltyPass, hquad e.1 e.2, hS, mul_one]
    · rw [chainPenaltyPass, hoff, totalIntraEdges, cast_map_sum]
  · intro hm
    rcases hpen.2.2 hm with ⟨hoff, hlin, hquad⟩
    have hdeg : ∀ z : Node, 1 ≤ endCount (chainEdgeIter es v) z →
        1 ≤ intraDegree es z := by
      intro z hcnt
      have hmem : endCount (chainEdgeIter es v) z ∈
          ((es.embedding.filter
            (fun p : Var × List Node => ¬ p.2.length = 1)).map
            (fun p => endCount (chainEdgeIter es p.1) z)) :=
        List.mem_map.mpr ⟨(v, ch), hvf, rfl⟩
      calc 1 ≤ endCount (chainEdgeIter es v) z := hcnt
        _ ≤ intraDegree es z :=
          List.single_le_sum (fun x _ => Nat.zero_le x) _ hmem
    have hc1 : 1 ≤ endCount (chainEdgeIter es v) e.1 := by
      have hin : e ∈ (chainEdgeIter es v).filter (fun x => e.1 = x.1) :=
        List.mem_filter.mpr ⟨he, by simp⟩
      have hpos := List.length_pos.mpr (List.ne_nil_of_mem hin)
      rw [endCount]
      omega
    have hc2 : 1 ≤ endCount (chainEdgeIter es v) e.2 := by
      have hin : e ∈ (chainEdgeIter es v).filter (fun x => e.2 = x.2) :=
        List.mem_filter.mpr ⟨he, by simp⟩
      have hpos := List.length_pos.mpr (List.ne_nil_of_mem hin)
      rw [endCount]
      omega
    refine ⟨?_, ?_, ?_, hdeg e.1 hc1, hdeg e.2 hc2⟩
    · rw [chainPenaltyPass, hquad e.1 e.2, hS, mul_one]
    · rw [chainPenaltyPass, hoff]
    · intro n
      rw [chainPenaltyPass, hlin n, intraDegree, cast_map_sum]
  · intro src t ht
    rcases embed_bqm_ok_elim ht with ⟨m1, m2, -, -, ht2⟩
    exact ⟨m2, ht2⟩

/-- C1 witness: the chain `{2, 3}` of the docstring example, its intra
edge `(2, 3)`, in both domains, with the tie to `embed_bqm`. -/
theorem claim_C1_witness :
    ((chainPenaltyPass wEs 1 (initTarget wBqm)).quad 2 3 =
        (initTarget wBqm).quad 2 3 - 1 ∧
      (chainPenaltyPass wEs 1 (initTarget wBqm)).offset =
        (initTarget wBqm).offset + 1 * (totalIntraEdges wEs : ℚ) ∧
      (∀ n, (chainPenaltyPass wEs 1 (initTarget wBqm)).lin n =
        (initTarget wBqm).lin n)) ∧
    ((chainPenaltyPass wEs 1 (initTarget wBqmB)).quad 2 3 =
        (initTarget wBqmB).quad 2 3 - 4 * 1 ∧
      (chainPenaltyPass wEs 1 (initTarget wBqmB)).offset =
        (initTarget wBqmB).offset ∧
      (∀ n, (chainPenaltyPass wEs 1 (initTarget wBqmB)).lin n =
        (initTarget wBqmB).lin n + 2 * 1 * (intraDegree wEs n : ℚ)) ∧
      1 ≤ intraDegree wEs 2 ∧ 1 ≤ intraDegree wEs 3) ∧
    (∀ src t, embed_bqm src wEs 1 = .ok t →
      ∃ m2, t = chainPenaltyPass wEs 1 m2) :=
  ⟨(@claim_C1 wEmb wEdges wEs (by decide) (by decide) rfl 12 [2, 3]
      (by decide) (by decide) (2, 3) (by decide) 1 (initTarget wBqm)).1 rfl,
    (@claim_C1 wEmb wEdges wEs (by decide) (by decide) rfl 12 [2, 3]
      (by decide) (by decide) (2, 3) (by decide) 1
      (initTarget wBqmB)).2.1 rfl,
    (@claim_C1 wEmb wEdges wEs (by decide) (by decide) rfl 12 [2, 3]
      (by decide) (by decide) (2, 3) (by decide) 1 (initTarget wBqm)).2.2⟩

theorem TBQM.ext_of (a b : TBQM) (hl : ∀ n, a.lin n = b.lin n)
    (hq : ∀ x y, a.quad x y = b.quad x y) (ho : a.offset = b.offset)
    (hv : a.vartype = b.vartype) : a = b := by
  cases a
  cases b
  simp only [TBQM.mk.injEq]
  exact ⟨funext hl, funext (fun x => funext (hq x)), ho, hv⟩

/-- When every chain has size 1, the penalty pass changes nothing: each step
is `add_variable(q, 0.0)`. -/
theorem chainPenaltyPass_trivial (es : EmbeddedStructure) (cs : ℚ)
    (m : TBQM) (hid : ∀ p ∈ es.embedding, p.2.length = 1) :
    (∀ n, (chainPenaltyPass es cs m).lin n = m.lin n) ∧
    (∀ x y, (chainPenaltyPass es cs m).quad x y = m.quad x y) ∧
    (chainPenaltyPass es cs m).offset = m.offset ∧
    (chainPenaltyPass es cs m).vartype = m.vartype := by
  have hfil : es.embedding.filter
      (fun p : Var × List Node => ¬ p.2.length = 1) = [] := by
    rw [List.filter_eq_nil_iff]
    intro p hp
    simp [hid p hp]
  rcases penaltySteps_char es cs es.embedding m with ⟨hvt, hspin, hbin⟩
  rw [hfil] at hspin hbin
  cases hv : m.vartype
  · rcases hspin hv with ⟨hlin, hoff, hquad⟩
    refine ⟨?_, ?_, ?_, ?_⟩
    · intro n
      rw [chainPenaltyPass]
      exact hlin n
    · intro x y
      rw [chainPenaltyPass, hquad x y]
      simp
    · rw [chainPenaltyPass, hoff]
      simp
    · rw [chainPenaltyPass]
      exact hvt.trans hv
  · rcases hbin hv with ⟨hoff, hlin, hquad⟩
    refine ⟨?_, ?_, ?_, ?_⟩
    · intro n
      rw [chainPenaltyPass, hlin n]
      simp
    · intro x y
      rw [chainPenaltyPass, hquad x y]
      simp
    · rw [chainPenaltyPass, hoff]
    · rw [chainPenaltyPass]
      exact hvt.trans hv

/-- Between two size-1 chains `[p]` and `[q]`, a nonempty interaction list
is exactly the single oriented edge `(p, q)`. -/
theorem interactionEdgeIter_identity {emb edges : List _}
    {es : EmbeddedStructure} (hG : GoodEmb emb) (hGE : GoodEdges edges)
    (hok : EmbeddedStructure.ofEdges edges emb = .ok es)
    {u v : Var} {p q : Node} (hu : (u, [p]) ∈ emb) (hv : (v, [q]) ∈ emb)
    (huv : u ≠ v)
    (hne : (interactionEdgeIter es u v).isEmpty = false) :
    interactionEdgeIter es u v = [(p, q)] := by
  have hchar := (interaction_edges_char hG hok hu hv huv).2
  have hcu : alookup emb u = some [p] := alookup_of_mem_nodup hG.1 hu
  have hcv : alookup emb v = some [q] := alookup_of_mem_nodup hG.1 hv
  have hall : ∀ a ∈ interactionEdgeIter es u v, a = (p, q) := by
    intro a ha
    rw [hchar] at ha
    have hmem := mem_connEdges ha
    rw [hcu, hcv] at hmem
    simp only [Option.getD_some, List.mem_singleton] at hmem
    exact Prod.ext_iff.mpr hmem
  have hpw : List.Pairwise (fun a b => a ≠ b ∧ a ≠ (b.2, b.1))
      (interactionEdgeIter es u v) := by
    rw [hchar]
    exact connEdges_pairwise hGE emb u v
  rcases hL : interactionEdgeIter es u v with _ | ⟨a, _ | ⟨b, tl⟩⟩
  · rw [hL] at hne
    exact Bool.noConfusion hne
  · have ha := hall a (by rw [hL]; exact List.mem_cons_self _ _)
    rw [ha]
  · exfalso
    rw [hL] at hpw
    have hr := (List.pairwise_cons.mp hpw).1 b (List.mem_cons_self _ _)
    have ha := hall a (by rw [hL]; simp)
    have hb := hall b (by rw [hL]; simp)
    exact hr.1 (ha.trans hb.symm)

/-- C5: under an identity embedding (every chain is a single node), a
successful `embed_bqm` keeps the source offset and vartype, relabels each
linear bias onto its chain's sole node unchanged, relabels each quadratic
bias onto the single connecting edge unchanged, and adds no chain-penalty
terms: the output does not depend on the chain strength at all. -/
theorem claim_C5 {emb edges : List _} {es : EmbeddedStructure}
    {src : SrcBQM} {cs : ℚ} {t : TBQM}
    (hG : GoodEmb emb) (hGE : GoodEdges edges)
    (hok : EmbeddedStructure.ofEdges edges emb = .ok es)
    (hS : SrcOk src)
    (hid : ∀ p ∈ emb, p.2.length = 1)
    (ht : embed_bqm src es cs = .ok t) :
    t.offset = src.offset ∧ t.vartype = src.vartype ∧
    (∀ v b q, (v, b) ∈ src.linear → alookup emb v = some [q] →
      t.lin q = b) ∧
    (∀ u v b p q, ((u, v), b) ∈ src.quadratic →
      alookup emb u = some [p] → alookup emb v = some [q] →
      t.quad p q = b) ∧
    (∀ cs2 : ℚ, embed_bqm src es cs2 = .ok t) := by
  have hemb : es.embedding = emb := (ofEdges_ok_elim hok).1
  rcases embed_bqm_ok_elim ht with ⟨m1, m2, hm1, hm2, ht2⟩
  have hch : ∀ p ∈ src.linear, (alookup es.embedding p.1).isSome := by
    intro p hp
    rcases hlk : alookup es.embedding p.1 with _ | ch
    · exfalso
      rcases linSteps_error es src.linear (initTarget src)
          ⟨p, hp, hlk⟩ with ⟨w, -, herr⟩
      rw [linearPass] at hm1
      rw [hm1] at herr
      exact Except.noConfusion herr
    · rfl
  have hqe : ∀ p ∈ src.quadratic,
      (interactionEdgeIter es p.1.1 p.1.2).isEmpty = false := by
    intro p hp
    rw [Bool.eq_false_iff]
    intro htrue
    rcases quadSteps_error es src.quadratic m1 ⟨p, hp, htrue⟩ with
      ⟨w, -, -, herr⟩
    rw [quadraticPass] at hm2
    rw [hm2] at herr
    exact Except.noConfusion herr
  have hchL : ∀ p ∈ src.linear, (alookup emb p.1).isSome := by
    rw [← hemb]
    exact hch
  have hqch : ∀ w ∈ src.quadratic,
      (alookup emb w.1.1).isSome ∧ (alookup emb w.1.2).isSome := by
    intro w hw
    rcases hS.2.2.2 w hw with ⟨h1, h2⟩
    rcases List.mem_map.mp h1 with ⟨p1, hp1, he1⟩
    rcases List.mem_map.mp h2 with ⟨p2, hp2, he2⟩
    exact ⟨he1 ▸ hchL p1 hp1, he2 ▸ hchL p2 hp2⟩
  rcases linSteps_ok_char es src.linear (initTarget src) hch with
    ⟨t1, hok1, hlin1, hquadA, hoff1, hvt1⟩
  rw [linearPass] at hm1
  rw [hm1] at hok1
  injection hok1 with hok1
  subst hok1
  rcases quadSteps_ok_char es src.quadratic m1 hqe with
    ⟨t2, hok2, hquadB, hlin2, hoff2, hvt2⟩
  rw [quadraticPass] at hm2
  rw [hm2] at hok2
  injection hok2 with hok2
  subst hok2
  have hidE : ∀ p ∈ es.embedding, p.2.length = 1 := by
    rw [hemb]
    exact hid
  have htriv := chainPenaltyPass_trivial es cs m2 hidE
  have htm : t = m2 :=
    ht2.trans (TBQM.ext_of _ _ htriv.1 htriv.2.1 htriv.2.2.1 htriv.2.2.2)
  refine ⟨?_, ?_, ?_, ?_, ?_⟩
  · rw [htm, hoff2, hoff1]
    rfl
  · rw [htm, hvt2, hvt1]
    rfl
  · intro v b nq hvb hlk
    have hlkE : alookup es.embedding v = some [nq] := by
      rw [hemb]
      exact hlk
    rw [htm, hlin2 nq, hlin1 nq]
    have hz : (initTarget src).lin nq = 0 := rfl
    rw [hz, zero_add]
    have hloc := linContrib_localize (show GoodEmb es.embedding by
        rw [hemb]; exact hG) src.linear hS.1 (v, b) hvb hlkE
      (List.mem_singleton_self nq)
    rw [hloc]
    simp
  · intro u v b np nq hq hlku hlkv
    have huv : u ≠ v := hS.2.2.1 ((u, v), b) hq
    have hum : (u, [np]) ∈ emb := alookup_eq_some_mem hlku
    have hvm : (v, [nq]) ∈ emb := alookup_eq_some_mem hlkv
    have hsing : interactionEdgeIter es u v = [(np, nq)] :=
      interactionEdgeIter_identity hG hGE hok hum hvm huv
        (hqe ((u, v), b) hq)
    have he : ((np : Node), nq) ∈ interactionEdgeIter es u v := by
      rw [hsing]
      exact List.mem_singleton_self _
    rw [htm, hquadB np nq, hquadA np nq]
    have hz : (initTarget src).quad np nq = 0 := rfl
    rw [hz, zero_add]
    have hloc : quadContrib es src.quadratic np nq =
        b / ((interactionEdgeIter es u v).length : ℚ) :=
      quadContrib_localize hG hGE hok src.quadratic hS.2.1
        (fun x hx => hS.2.2.1 x hx) (fun x hx => hqch x hx)
        ((u, v), b) hq (np, nq) he
    rw [hloc, hsing]
    simp
  · intro cs2
    have htriv2 := chainPenaltyPass_trivial es cs2 m2 hidE
    have hcp2 : chainPenaltyPass es cs2 m2 = m2 :=
      TBQM.ext_of _ _ htriv2.1 htriv2.2.1 htriv2.2.2.1 htriv2.2.2.2
    rw [htm, ← hcp2]
    exact embed_bqm_of_passes (by rw [linearPass]; exact hm1)
      (by rw [quadraticPass]; exact hm2)

/-- C5 witness: the identity embedding onto a triangle reproduces the
source coefficients, offset and vartype, for every chain strength. -/
theorem claim_C5_witness :
    wTId.offset = wSrcId.offset ∧ wTId.vartype = wSrcId.vartype ∧
    (∀ v b q, (v, b) ∈ wSrcId.linear → alookup wEmbId v = some [q] →
      wTId.lin q = b) ∧
    (∀ u v b p q, ((u, v), b) ∈ wSrcId.quadratic →
      alookup wEmbId u = some [p] → alookup wEmbId v = some [q] →
      wTId.quad p q = b) ∧
    (∀ cs2 : ℚ, embed_bqm wSrcId wEsId cs2 = .ok wTId) :=
  @claim_C5 wEmbId wEdgesId wEsId wSrcId 1 wTId (by decide) (by decide)
    rfl (by decide) (by decide) rfl

end DwaveEmbedding
